import Mathlib

/-! # LockFreeStackPush: a verification development

Shallow embedding of `src/lockFreeStackPush.cpp` (the class template
`LockFreeStackPush<T>` with its only member function `push`) and proofs about it.

* Pointers are natural numbers, `nullptr` is `0`.
* The free store is a finite association list from addresses to `Node`s.  The class never
  deletes a node, so an address returned by `new` differs from all addresses in the store.
* `std::atomic<Node*>` operations use the default `memory_order_seq_cst`, so a
  concurrent execution is an interleaving of atomic steps.  The three steps of
  `push` are the three numbered source lines: line 79 (`new Node(val)`),
  line 80 (`newNode->next = head.load()`) and line 81 (one
  `compare_exchange_strong` attempt of the `while` loop).  Between line 79 and a
  successful line 81 the node `*newNode` is private to the calling thread, which
  is why the accesses to `newNode->next` are folded into the step of the atomic
  access to `head` they accompany.
* After a successful `compare_exchange_strong` the loop is left and `push` returns without
  touching shared state again, so the successful CAS also stands for the return of the call.
* `push` is modelled twice from the same steps: as a function (`push`, one thread, no
  interference) and as a transition system (`step`, `run`) in which a scheduler interleaves the
  steps of any number of calls and records a history of events.
* The class has no initialiser for `head`; what the defaulted constructor leaves in it is
  decided by the standard library (`defaultConstructed`).  Executions therefore start from an
  arbitrary given stack.
-/

namespace LockFree

/-! ## Data model -/

/-- Addresses of heap cells (`Node*`). -/
abbrev Addr := Nat

/-- The null pointer. -/
def nullptr : Addr := 0

/-- Source lines 67-71: `struct Node { T data; Node* next; }`. -/
structure Node (T : Type) where
  data : T
  next : Addr
deriving DecidableEq, Repr

/-- The free store: the nodes allocated so far, most recent allocation first. -/
abbrev Heap (T : Type) := List (Addr × Node T)

/-- Dereference: the node stored at an address (`none` when nothing is allocated there). -/
def deref {T : Type} : Heap T → Addr → Option (Node T)
  | [], _ => none
  | (b, n) :: rest, a => if b = a then some n else deref rest a

/-- Addresses of the allocated nodes. -/
def addrs {T : Type} (h : Heap T) : List Addr := h.map Prod.fst

/-- The assignment `p->next = x`. -/
def storeNext {T : Type} : Heap T → Addr → Addr → Heap T
  | [], _, _ => []
  | (b, n) :: rest, p, x =>
    if b = p then (b, { n with next := x }) :: rest else (b, n) :: storeNext rest p x

/-- Source lines 65-83: an object of class `LockFreeStackPush<T>` (its only data member is
`std::atomic<Node*> head`, line 72) together with the free store its nodes live in. -/
structure LockFreeStackPush (T : Type) where
  head : Addr
  heap : Heap T
deriving DecidableEq, Repr

/-- What `new` guarantees about the address it returns: it is not null and differs from the
address of every node that is still allocated (no node is ever deleted by this class). -/
def fresh {T : Type} (m : LockFreeStackPush T) (a : Addr) : Prop :=
  a ≠ nullptr ∧ a ∉ addrs m.heap

instance {T : Type} (m : LockFreeStackPush T) (a : Addr) : Decidable (fresh m a) := by
  unfold fresh; exact inferInstance

/-- Follow `next` from address `a` for at most `fuel` nodes, collecting address and payload of
each node; `none` when a dangling pointer is met or the fuel runs out before `nullptr`. -/
def walk {T : Type} (h : Heap T) : Nat → Addr → Option (List (Addr × T))
  | 0, a => if a = nullptr then some [] else none
  | fuel + 1, a =>
    if a = nullptr then some []
    else match deref h a with
      | none => none
      | some n => (walk h fuel n.next).map (fun l => (a, n.data) :: l)

/-- The chain read from `head`: nodes in order, top of the stack first.  A null-terminated
chain of distinct allocated nodes has at most `heap.length` nodes, so this much fuel is enough
exactly when the chain is a finite list without cycles. -/
def chain {T : Type} (m : LockFreeStackPush T) : Option (List (Addr × T)) :=
  walk m.heap m.heap.length m.head

/-- Payloads of the chain read from `head`, top first. -/
def payloads {T : Type} (m : LockFreeStackPush T) : Option (List T) :=
  (chain m).map (fun l => l.map Prod.snd)

/-- Well-formed stack state: the chain from `head` is a finite null-terminated list. -/
def WellFormed {T : Type} (m : LockFreeStackPush T) : Prop := (chain m).isSome = true

instance {T : Type} (m : LockFreeStackPush T) : Decidable (WellFormed m) := by
  unfold WellFormed; exact inferInstance

/-! ## The atomic steps of `push` -/

/-- Line 79, successful case: `Node* const newNode = new Node(val)` with `a` the address
returned by `new`; the constructor of line 70 sets `data(d), next(nullptr)`. -/
def allocNode {T : Type} (m : LockFreeStackPush T) (a : Addr) (val : T) : LockFreeStackPush T :=
  { m with heap := (a, { data := val, next := nullptr }) :: m.heap }

/-- The call `head.load()`. -/
def load {T : Type} (m : LockFreeStackPush T) : Addr := m.head

/-- Line 80: `newNode->next = head.load()`. -/
def snapshot {T : Type} (m : LockFreeStackPush T) (newNode : Addr) : LockFreeStackPush T :=
  { m with heap := storeNext m.heap newNode (load m) }

/-- The call `head.compare_exchange_strong(expected, desired)` on the current value `cur` of
`head`: the result is (return value, new `head`, new `expected`). -/
def compare_exchange_strong (cur expected desired : Addr) : Bool × Addr × Addr :=
  if cur = expected then (true, desired, expected) else (false, cur, cur)

/-- Line 81, one evaluation of the loop condition
`head.compare_exchange_strong(newNode->next, newNode)`: the flag is the value returned by
`compare_exchange_strong`.  `none` if `newNode` is not allocated. -/
def casAttempt {T : Type} (m : LockFreeStackPush T) (newNode : Addr) :
    Option (Bool × LockFreeStackPush T) :=
  match deref m.heap newNode with
  | none => none
  | some n =>
    match compare_exchange_strong m.head n.next newNode with
    | (true, h, _) => some (true, { m with head := h })
    | (false, _, e) => some (false, { m with heap := storeNext m.heap newNode e })

/-! ## `push` run by one thread without interference -/

/-- Line 81: the loop `while (!head.compare_exchange_strong(newNode->next, newNode));`, run
without interference; `retries` counts the failed attempts so far. -/
def casLoop {T : Type} (newNode : Addr) :
    Nat → LockFreeStackPush T → Nat → Option (LockFreeStackPush T × Nat)
  | 0, _, _ => none
  | fuel + 1, m, retries =>
    match casAttempt m newNode with
    | none => none
    | some (true, m1) => some (m1, retries)
    | some (false, m1) => casLoop newNode fuel m1 (retries + 1)

/-- How a call of `push` ends: it returns (after some number of failed CAS attempts), or the
`std::bad_alloc` thrown by `new` leaves the function (there is no handler in `push`). -/
inductive PushResult (T : Type) where
  | returned (m : LockFreeStackPush T) (retries : Nat)
  | bad_alloc (m : LockFreeStackPush T)
deriving DecidableEq, Repr

/-- Lines 78-82: `void push(T val)` run by one thread without interference.  `alloc` is the
outcome of `new` at line 79: `some a` is the address of the new node, `none` an allocation
failure.  `none` as a result means the fuel ran out inside the loop. -/
def push {T : Type} (m : LockFreeStackPush T) (val : T) (alloc : Option Addr) (fuel : Nat) :
    Option (PushResult T) :=
  match alloc with
  | none => some (PushResult.bad_alloc m)
  | some newNode =>
    let m1 := allocNode m newNode val
    let m2 := snapshot m1 newNode
    (casLoop newNode fuel m2 0).map (fun r => PushResult.returned r.1 r.2)

/-- The stack state a call of `push` leaves behind. -/
def PushResult.state {T : Type} : PushResult T → LockFreeStackPush T
  | PushResult.returned m _ => m
  | PushResult.bad_alloc m => m

/-- Several calls `push(v)` issued one after another by a single thread; each value comes with
the address `new` returns for it. -/
def pushAll {T : Type} (fuel : Nat) : LockFreeStackPush T → List (T × Addr) →
    Option (LockFreeStackPush T)
  | m, [] => some m
  | m, (v, a) :: rest =>
    match push m v (some a) fuel with
    | some r => pushAll fuel r.state rest
    | none => none

/-! ## Concurrent executions: interleavings of the atomic steps of `push` calls -/

/-- Where a call of `push` stands: about to execute line 79, 80 or 81, or finished, either by
returning (its CAS succeeded and the loop of line 81 was left) or by the exception of `new`. -/
inductive PC where
  | line79
  | line80
  | line81
  | returned
  | threw
deriving DecidableEq, Repr

/-- One call `push(val)`: its argument, its position and its local variable `newNode`
(`nullptr` before line 79 has been executed). -/
structure Call (T : Type) where
  val : T
  pc : PC
  newNode : Addr
deriving DecidableEq, Repr

/-- A call is running from its invocation until it returns or throws. -/
def Call.running {T : Type} (c : Call T) : Bool :=
  c.pc = PC.line79 || c.pc = PC.line80 || c.pc = PC.line81

/-- A call owns a node once line 79 has succeeded. -/
def Call.hasNode {T : Type} (c : Call T) : Bool :=
  c.pc = PC.line80 || c.pc = PC.line81 || c.pc = PC.returned

/-- The shared stack object and all calls of `push` issued on it so far, by whatever threads;
a call is identified by its position in `calls`. -/
structure State (T : Type) where
  stack : LockFreeStackPush T
  calls : List (Call T)
deriving DecidableEq, Repr

/-- What the scheduler and the allocator can do next: some thread invokes `push(val)`, or call
`i` executes its next line; for line 79 the outcome `r` of `new` is given (`none`: failure). -/
inductive Action (T : Type) where
  | invoke (val : T)
  | alloc (i : Nat) (r : Option Addr)
  | load (i : Nat)
  | cas (i : Nat)
deriving DecidableEq, Repr

/-- What a step did.  `loaded i h`: call `i` stored the value `h` of `head` in its node
(line 80).  `casFail i h`: the CAS of call `i` failed and refreshed the snapshot to `h`.
`casOk i old node`: the CAS of call `i` changed `head` from `old` to `node`, and the call
returned. -/
inductive Event where
  | invoked (i : Nat)
  | allocated (i : Nat) (a : Addr)
  | allocFailed (i : Nat)
  | loaded (i : Nat) (h : Addr)
  | casFail (i : Nat) (h : Addr)
  | casOk (i : Nat) (old : Addr) (node : Addr)
deriving DecidableEq, Repr

/-- One atomic step.  `none` when the action is not possible in this state: the call does not
exist or is not at that line, or the address is one `new` cannot return. -/
def step {T : Type} (s : State T) : Action T → Option (State T × Event)
  | Action.invoke v =>
    some ({ s with calls := s.calls ++ [{ val := v, pc := PC.line79, newNode := nullptr }] },
      Event.invoked s.calls.length)
  | Action.alloc i r =>
    match s.calls[i]? with
    | none => none
    | some c =>
      if c.pc = PC.line79 then
        match r with
        | none =>
          some ({ s with calls := s.calls.set i { c with pc := PC.threw } }, Event.allocFailed i)
        | some a =>
          if fresh s.stack a then
            some ({ stack := allocNode s.stack a c.val,
                    calls := s.calls.set i { c with pc := PC.line80, newNode := a } },
              Event.allocated i a)
          else none
      else none
  | Action.load i =>
    match s.calls[i]? with
    | none => none
    | some c =>
      if c.pc = PC.line80 then
        some ({ stack := snapshot s.stack c.newNode,
                calls := s.calls.set i { c with pc := PC.line81 } },
          Event.loaded i (load s.stack))
      else none
  | Action.cas i =>
    match s.calls[i]? with
    | none => none
    | some c =>
      if c.pc = PC.line81 then
        match casAttempt s.stack c.newNode with
        | none => none
        | some (true, m) =>
          some ({ stack := m, calls := s.calls.set i { c with pc := PC.returned } },
            Event.casOk i s.stack.head c.newNode)
        | some (false, m) =>
          some ({ stack := m, calls := s.calls }, Event.casFail i s.stack.head)
      else none

/-- Run a schedule from a state and the history so far; the history lists the events with the
latest event first. -/
def runFrom {T : Type} :
    State T × List Event → List (Action T) → Option (State T × List Event)
  | c, [] => some c
  | c, a :: rest =>
    match step c.1 a with
    | none => none
    | some (s, e) => runFrom (s, e :: c.2) rest

/-- An execution: a schedule run on a stack on which no call of `push` is in progress. -/
def run {T : Type} (m : LockFreeStackPush T) (acts : List (Action T)) :
    Option (State T × List Event) :=
  runFrom ({ stack := m, calls := [] }, []) acts

/-! ## Reading the history -/

/-- The event is a snapshot of `head` taken by call `i`: its load at line 80 or a failed CAS. -/
def Event.isSnapshotOf (i : Nat) : Event → Bool
  | Event.loaded j _ => j = i
  | Event.casFail j _ => j = i
  | _ => false

/-- The event is a successful CAS on `head`. -/
def Event.isCasOk : Event → Bool
  | Event.casOk _ _ _ => true
  | _ => false

/-- The event is a successful CAS of a call other than `i`. -/
def Event.isCasOkOfOther (i : Nat) : Event → Bool
  | Event.casOk j _ _ => j ≠ i
  | _ => false

/-- The event is the successful CAS of call `i`. -/
def Event.isCasOkOf (i : Nat) : Event → Bool
  | Event.casOk j _ _ => j = i
  | _ => false

/-- The event is a failed CAS of call `i`. -/
def Event.isCasFailOf (i : Nat) : Event → Bool
  | Event.casFail j _ => j = i
  | _ => false

/-- The events after the most recent snapshot of call `i` (latest first). -/
def sinceSnapshot (i : Nat) (log : List Event) : List Event :=
  log.takeWhile (fun e => !e.isSnapshotOf i)

/-- The calls whose CAS succeeded, latest success first. -/
def linearized : List Event → List Nat
  | [] => []
  | Event.casOk i _ _ :: rest => i :: linearized rest
  | _ :: rest => linearized rest

/-- The nodes installed as `head` by the successful CASes, latest first. -/
def installed : List Event → List Addr
  | [] => []
  | Event.casOk _ _ node :: rest => node :: installed rest
  | _ :: rest => installed rest

/-- The values the successful CASes found in `head` (and replaced), latest first. -/
def replaced : List Event → List Addr
  | [] => []
  | Event.casOk _ old _ :: rest => old :: replaced rest
  | _ :: rest => replaced rest

/-- All values `head` has taken, latest first, `h0` being the initial one. -/
def headValues (h0 : Addr) (log : List Event) : List Addr := installed log ++ [h0]

/-- Number of failed CAS attempts of call `i`. -/
def failures (i : Nat) (log : List Event) : Nat := log.countP (fun e => e.isCasFailOf i)

/-- The part of the history during which call `i` was running: from just after its invocation
up to and including its successful CAS, or up to now if it has not returned. -/
def whileRunning (i : Nat) (log : List Event) : List Event :=
  let upToReturn := if log.any (fun e => e.isCasOkOf i) then
      log.dropWhile (fun e => !e.isCasOkOf i) else log
  upToReturn.takeWhile (fun e => decide (e ≠ Event.invoked i))

/-- Number of successful CASes of other calls while call `i` was running. -/
def othersSucceeded (i : Nat) (log : List Event) : Nat :=
  (whileRunning i log).countP (fun e => e.isCasOkOfOther i)

/-! ## Chains as a relation -/

/-- The list `l` is the chain starting at address `a`: following `next` from `a` visits exactly
the nodes of `l`, with these payloads, and then reaches `nullptr`. -/
def IsChain {T : Type} (h : Heap T) : Addr → List (Addr × T) → Prop
  | a, [] => a = nullptr
  | a, (b, v) :: l =>
    a = b ∧ a ≠ nullptr ∧
      ∃ nx, deref h a = some { data := v, next := nx } ∧ IsChain h nx l

/-! ## Notions used in the proofs -/

/-- The call an event belongs to. -/
def Event.call : Event → Nat
  | Event.invoked i => i
  | Event.allocated i _ => i
  | Event.allocFailed i => i
  | Event.loaded i _ => i
  | Event.casFail i _ => i
  | Event.casOk i _ _ => i

/-- The nodes (address and payload) of the calls whose CAS succeeded, latest success first. -/
def linked {T : Type} (calls : List (Call T)) (log : List Event) : List (Addr × T) :=
  (linearized log).filterMap (fun i => (calls[i]?).map (fun c => (c.newNode, c.val)))

/-- The ways a step can go, as a relation between the state before, the state after and the
event. -/
inductive StepCase {T : Type} (s : State T) : State T → Event → Prop where
  | invoke (v : T) :
    StepCase s { s with calls := s.calls ++ [{ val := v, pc := PC.line79, newNode := nullptr }] }
      (Event.invoked s.calls.length)
  | allocFail (i : Nat) (c : Call T) (hc : s.calls[i]? = some c) (hpc : c.pc = PC.line79) :
    StepCase s { s with calls := s.calls.set i { c with pc := PC.threw } } (Event.allocFailed i)
  | alloc (i : Nat) (c : Call T) (a : Addr) (hc : s.calls[i]? = some c) (hpc : c.pc = PC.line79)
      (ha : fresh s.stack a) :
    StepCase s { stack := allocNode s.stack a c.val,
                 calls := s.calls.set i { c with pc := PC.line80, newNode := a } }
      (Event.allocated i a)
  | load (i : Nat) (c : Call T) (hc : s.calls[i]? = some c) (hpc : c.pc = PC.line80) :
    StepCase s { stack := snapshot s.stack c.newNode,
                 calls := s.calls.set i { c with pc := PC.line81 } }
      (Event.loaded i s.stack.head)
  | casOk (i : Nat) (c : Call T) (n : Node T) (hc : s.calls[i]? = some c)
      (hpc : c.pc = PC.line81) (hn : deref s.stack.heap c.newNode = some n)
      (hh : s.stack.head = n.next) :
    StepCase s { stack := { s.stack with head := c.newNode },
                 calls := s.calls.set i { c with pc := PC.returned } }
      (Event.casOk i s.stack.head c.newNode)
  | casFail (i : Nat) (c : Call T) (n : Node T) (hc : s.calls[i]? = some c)
      (hpc : c.pc = PC.line81) (hn : deref s.stack.heap c.newNode = some n)
      (hh : s.stack.head ≠ n.next) :
    StepCase s { stack := { s.stack with heap := storeNext s.stack.heap c.newNode s.stack.head },
                 calls := s.calls.set i c }
      (Event.casFail i s.stack.head)

/-- The invariant of executions that start from the stack `m0`, whose chain is `l0`, with no
call in progress.  It relates the state to the history. -/
structure Inv {T : Type} (m0 : LockFreeStackPush T) (l0 : List (Addr × T)) (s : State T)
    (log : List Event) : Prop where
  /-- the initial chain -/
  initChain : IsChain m0.heap m0.head l0
  /-- the chain from `head`: the linked nodes, latest first, then the initial chain -/
  chain : IsChain s.stack.heap s.stack.head (linked s.calls log ++ l0)
  /-- nothing is deallocated -/
  init : ∀ a ∈ addrs m0.heap, a ∈ addrs s.stack.heap
  /-- the node of a call is allocated, was not there initially and carries the argument -/
  node : ∀ (i : Nat) (c : Call T), s.calls[i]? = some c → c.hasNode = true →
    c.newNode ≠ nullptr ∧ c.newNode ∉ addrs m0.heap ∧
      ∃ nx, deref s.stack.heap c.newNode = some { data := c.val, next := nx }
  /-- different calls have different nodes -/
  distinct : ∀ (i j : Nat) (ci cj : Call T), s.calls[i]? = some ci → s.calls[j]? = some cj →
    ci.hasNode = true → cj.hasNode = true → ci.newNode = cj.newNode → i = j
  /-- a call has returned exactly when its CAS succeeded -/
  returned : ∀ (i : Nat) (c : Call T), s.calls[i]? = some c →
    (c.pc = PC.returned ↔ i ∈ linearized log)
  /-- every event belongs to a call that exists -/
  ids : ∀ e ∈ log, e.call < s.calls.length
  /-- every event of a call comes after the invocation of the call -/
  order : ∀ (later earlier : List Event) (j : Nat),
    log = later ++ Event.invoked j :: earlier → ∀ e ∈ earlier, e.call < j
  /-- no call succeeds twice -/
  linNodup : (linearized log).Nodup
  /-- the successful CASes installed the nodes of their calls -/
  installed : (linked s.calls log).map Prod.fst = installed log
  /-- the current value of `head` is the latest of its values -/
  head : (headValues m0.head log).head? = some s.stack.head
  /-- each successful CAS replaced the value `head` had just before -/
  replaced : replaced log = (headValues m0.head log).tail

/-- The invariant about snapshots: the node of a call at line 81 holds in `next` the value the
call's latest snapshot event recorded; this value is one `head` has had, and it is the current
value of `head` exactly when no CAS has succeeded since that snapshot. -/
def SnapInv {T : Type} (m0 : LockFreeStackPush T) (s : State T) (log : List Event) : Prop :=
  ∀ (i : Nat) (c : Call T), s.calls[i]? = some c → c.pc = PC.line81 →
    ∃ nx, deref s.stack.heap c.newNode = some { data := c.val, next := nx } ∧
      (nx = s.stack.head ↔ ∀ e ∈ sinceSnapshot i log, e.isCasOk = false) ∧
      nx ∈ headValues m0.head log ∧
      ∃ e earlier, log = sinceSnapshot i log ++ e :: earlier ∧
        (e = Event.loaded i nx ∨ e = Event.casFail i nx)

/-- Number of successful CASes of other calls since the latest snapshot of call `i`, counted
while the call is at line 81 (and 0 otherwise). -/
def pendingOthers {T : Type} (s : State T) (log : List Event) (i : Nat) : Nat :=
  match s.calls[i]? with
  | some c =>
    if c.pc = PC.line81 then (sinceSnapshot i log).countP (fun e => e.isCasOkOfOther i) else 0
  | none => 0

/-- The counting invariant: every failed CAS of a call, and every success of another call that
its current snapshot has not seen yet, is paid for by a success of another call while the call
was running. -/
def CountInv {T : Type} (s : State T) (log : List Event) : Prop :=
  ∀ i : Nat, failures i log + pendingOthers s log i ≤ othersSucceeded i log

/-! ## Construction -/

/-- Lines 72 and 74: `LockFreeStackPush() = default;` default-initialises the only data member,
`std::atomic<Node*> head;`, for which the class gives no initialiser; the free store is not
touched.  What `head` holds afterwards is decided by the default constructor of
`std::atomic`, which is part of the standard library and not of the source.  Up to C++17 that
constructor is trivial and leaves the pointer uninitialised, so `head` holds whatever the
storage of the object held (`storage`); from C++20 on it value-initialises the pointer
(`valueInit = true`), so `head` is `nullptr`. -/
def defaultConstructed {T : Type} (valueInit : Bool) (storage : Addr) (heap : Heap T) :
    LockFreeStackPush T :=
  { head := if valueInit then nullptr else storage, heap := heap }

/-- Lines 87-88 of `main`: `LockFreeStackPush<int> lockFreeStack; lockFreeStack.push(5);` with
an empty free store; `alloc` is the outcome of `new`. -/
def mainFirstPush (valueInit : Bool) (storage : Addr) (alloc : Option Addr) (fuel : Nat) :
    Option (PushResult Int) :=
  push (defaultConstructed valueInit storage []) 5 alloc fuel

/-! ## A small execution used to illustrate the theorems -/

/-- A stack holding the value 10 in the node at address 1. -/
def demoStack : LockFreeStackPush Nat :=
  { head := 1, heap := [(1, { data := 10, next := 0 })] }

/-- Two threads call `push(7)` and `push(8)`; both take their snapshot of `head` before
either tries its CAS. -/
def demoRace : List (Action Nat) :=
  [Action.invoke 7, Action.invoke 8, Action.alloc 0 (some 2), Action.alloc 1 (some 3),
   Action.load 0, Action.load 1]

/-- The state after `demoRace`: both calls are at line 81 with the snapshot 1. -/
def demoRaceState : State Nat :=
  { stack := { head := 1, heap := [(3, { data := 8, next := 1 }), (2, { data := 7, next := 1 }),
                 (1, { data := 10, next := 0 })] },
    calls := [{ val := 7, pc := PC.line81, newNode := 2 },
              { val := 8, pc := PC.line81, newNode := 3 }] }

/-- The history of `demoRace`, latest event first. -/
def demoRaceLog : List Event :=
  [Event.loaded 1 1, Event.loaded 0 1, Event.allocated 1 3, Event.allocated 0 2,
   Event.invoked 1, Event.invoked 0]

/-- After the race the second call wins, the first call fails once and then succeeds. -/
def demoSchedule : List (Action Nat) :=
  demoRace ++ [Action.cas 1, Action.cas 0, Action.cas 0]

/-- The state after `demoSchedule`: the chain is 7, 8, 10. -/
def demoState : State Nat :=
  { stack := { head := 2, heap := [(3, { data := 8, next := 1 }), (2, { data := 7, next := 3 }),
                 (1, { data := 10, next := 0 })] },
    calls := [{ val := 7, pc := PC.returned, newNode := 2 },
              { val := 8, pc := PC.returned, newNode := 3 }] }

/-- The history of `demoSchedule`, latest event first. -/
def demoLog : List Event :=
  [Event.casOk 0 3 2, Event.casFail 0 3, Event.casOk 1 1 3] ++ demoRaceLog

/-- One thread calls `push(7)` and, after that call has returned, `push(8)`. -/
def demoSequence : List (Action Nat) :=
  [Action.invoke 7, Action.alloc 0 (some 2), Action.load 0, Action.cas 0,
   Action.invoke 8, Action.alloc 1 (some 3), Action.load 1, Action.cas 1]

/-- The state after `demoSequence`: the chain is 8, 7, 10. -/
def demoSequenceState : State Nat :=
  { stack := { head := 3, heap := [(3, { data := 8, next := 2 }), (2, { data := 7, next := 1 }),
                 (1, { data := 10, next := 0 })] },
    calls := [{ val := 7, pc := PC.returned, newNode := 2 },
              { val := 8, pc := PC.returned, newNode := 3 }] }

/-- The history of `demoSequence`, latest event first. -/
def demoSequenceLog : List Event :=
  [Event.casOk 1 2 3, Event.loaded 1 2, Event.allocated 1 3] ++
    Event.invoked 1 :: ([] ++ Event.casOk 0 1 2 ::
      [Event.loaded 0 1, Event.allocated 0 2, Event.invoked 0])

/-- The state after `demoRace` and the successful CAS of the second call: the first call is
at line 81 with the snapshot 1, which is no longer the value of `head`. -/
def demoStaleState : State Nat :=
  { stack := { head := 3, heap := [(3, { data := 8, next := 1 }), (2, { data := 7, next := 1 }),
                 (1, { data := 10, next := 0 })] },
    calls := [{ val := 7, pc := PC.line81, newNode := 2 },
              { val := 8, pc := PC.returned, newNode := 3 }] }

/-- The state after the failed CAS of the first call in `demoStaleState`: its snapshot has
been refreshed to 3. -/
def demoRefreshedState : State Nat :=
  { stack := { head := 3, heap := [(3, { data := 8, next := 1 }), (2, { data := 7, next := 3 }),
                 (1, { data := 10, next := 0 })] },
    calls := [{ val := 7, pc := PC.line81, newNode := 2 },
              { val := 8, pc := PC.returned, newNode := 3 }] }

/-! ## Facts about the free store -/

theorem deref_eq_none_iff {T : Type} (h : Heap T) (a : Addr) :
    deref h a = none ↔ a ∉ addrs h := by
  induction h with
  | nil => simp [deref, addrs]
  | cons x rest ih =>
    obtain ⟨b, n⟩ := x
    by_cases hb : b = a
    · simp [deref, addrs, hb]
    · have hb2 : ¬ a = b := fun e => hb e.symm
      simpa [deref, addrs, hb, hb2] using ih

theorem mem_addrs_of_deref {T : Type} {h : Heap T} {a : Addr} {n : Node T}
    (hd : deref h a = some n) : a ∈ addrs h := by
  by_contra hc
  rw [← deref_eq_none_iff] at hc
  rw [hc] at hd
  cases hd

theorem addrs_storeNext {T : Type} (h : Heap T) (p x : Addr) :
    addrs (storeNext h p x) = addrs h := by
  induction h with
  | nil => rfl
  | cons y rest ih =>
    obtain ⟨b, n⟩ := y
    by_cases hb : b = p
    · simp [storeNext, addrs, hb]
    · simp only [addrs] at ih
      simp [storeNext, addrs, hb, ih]

theorem length_storeNext {T : Type} (h : Heap T) (p x : Addr) :
    (storeNext h p x).length = h.length := by
  have := congrArg List.length (addrs_storeNext h p x)
  simpa [addrs] using this

theorem deref_storeNext_self {T : Type} (h : Heap T) (p x : Addr) :
    deref (storeNext h p x) p = (deref h p).map (fun n => { n with next := x }) := by
  induction h with
  | nil => rfl
  | cons y rest ih =>
    obtain ⟨b, n⟩ := y
    by_cases hb : b = p
    · simp [storeNext, deref, hb]
    · simp [storeNext, deref, hb, ih]

theorem deref_storeNext_ne {T : Type} (h : Heap T) (p x q : Addr) (hq : q ≠ p) :
    deref (storeNext h p x) q = deref h q := by
  induction h with
  | nil => rfl
  | cons y rest ih =>
    obtain ⟨b, n⟩ := y
    by_cases hb : b = p
    · have hpq : ¬ p = q := fun e => hq e.symm
      subst hb
      simp [storeNext, deref, hpq]
    · by_cases hbq : b = q
      · subst hbq
        simp [storeNext, deref, hb]
      · simp [storeNext, deref, hb, hbq, ih]

theorem deref_cons_ne {T : Type} (h : Heap T) (a q : Addr) (n : Node T) (hq : q ≠ a) :
    deref ((a, n) :: h) q = deref h q := by
  have : ¬ a = q := fun e => hq e.symm
  simp [deref, this]

/-! ## Facts about chains -/

theorem IsChain.frame {T : Type} {h h' : Heap T} {a : Addr} {l : List (Addr × T)}
    (hc : IsChain h a l) (hf : ∀ x ∈ l, deref h' x.1 = deref h x.1) : IsChain h' a l := by
  induction l generalizing a with
  | nil => exact hc
  | cons x l ih =>
    obtain ⟨b, v⟩ := x
    obtain ⟨hab, hnz, nx, hd, hrest⟩ := hc
    refine ⟨hab, hnz, nx, ?_, ih hrest (fun y hy => hf y (List.mem_cons_of_mem _ hy))⟩
    have := hf (b, v) (List.mem_cons_self _ _)
    simp only at this
    rw [hab, this, ← hab, hd]

theorem IsChain.unique {T : Type} {h : Heap T} {a : Addr} {l l' : List (Addr × T)}
    (hc : IsChain h a l) (hc' : IsChain h a l') : l = l' := by
  induction l generalizing a l' with
  | nil =>
    cases l' with
    | nil => rfl
    | cons y l' =>
      obtain ⟨b, v⟩ := y
      exact absurd hc hc'.2.1
  | cons x l ih =>
    obtain ⟨b, v⟩ := x
    obtain ⟨hab, hnz, nx, hd, hrest⟩ := hc
    cases l' with
    | nil => exact absurd hc' hnz
    | cons y l' =>
      obtain ⟨b', v'⟩ := y
      obtain ⟨hab', _, nx', hd', hrest'⟩ := hc'
      rw [hd] at hd'
      injection hd' with hd'
      injection hd' with hv hnx
      subst hv hnx hab
      rw [← hab', ih hrest hrest']

theorem IsChain.suffix {T : Type} {h : Heap T} {a : Addr} {l1 l2 : List (Addr × T)}
    {x : Addr × T} (hc : IsChain h a (l1 ++ x :: l2)) : IsChain h x.1 (x :: l2) := by
  induction l1 generalizing a with
  | nil =>
    obtain ⟨b, v⟩ := x
    have hab := hc.1
    simp only [List.nil_append] at hc
    rw [← hab]; exact hab ▸ hc
  | cons y l1 ih =>
    obtain ⟨b, v⟩ := y
    obtain ⟨_, _, nx, _, hrest⟩ := hc
    exact ih hrest

theorem IsChain.mem_addrs {T : Type} {h : Heap T} {a : Addr} {l : List (Addr × T)}
    (hc : IsChain h a l) : ∀ x ∈ l, x.1 ∈ addrs h := by
  induction l generalizing a with
  | nil => intro x hx; cases hx
  | cons y l ih =>
    obtain ⟨b, v⟩ := y
    obtain ⟨hab, _, nx, hd, hrest⟩ := hc
    intro x hx
    rcases List.mem_cons.1 hx with rfl | hx
    · exact hab ▸ mem_addrs_of_deref hd
    · exact ih hrest x hx

theorem IsChain.ne_null {T : Type} {h : Heap T} {a : Addr} {l : List (Addr × T)}
    (hc : IsChain h a l) : ∀ x ∈ l, x.1 ≠ nullptr := by
  induction l generalizing a with
  | nil => intro x hx; cases hx
  | cons y l ih =>
    obtain ⟨b, v⟩ := y
    obtain ⟨hab, hnz, nx, hd, hrest⟩ := hc
    intro x hx
    rcases List.mem_cons.1 hx with rfl | hx
    · exact hab ▸ hnz
    · exact ih hrest x hx

theorem IsChain.nodup {T : Type} {h : Heap T} {a : Addr} {l : List (Addr × T)}
    (hc : IsChain h a l) : (l.map Prod.fst).Nodup := by
  induction l generalizing a with
  | nil => simp
  | cons y l ih =>
    obtain ⟨b, v⟩ := y
    have hc0 := hc
    obtain ⟨hab, _, nx, hd, hrest⟩ := hc
    rw [List.map_cons, List.nodup_cons]
    refine ⟨?_, ih hrest⟩
    intro hmem
    obtain ⟨⟨b', v'⟩, hx, hb⟩ := List.mem_map.1 hmem
    simp only at hb
    subst hb
    obtain ⟨l1, l2, hl⟩ := List.append_of_mem hx
    have hsuf : IsChain h b' ((b', v') :: l2) := by
      have := IsChain.suffix (hl ▸ hrest)
      exact this
    have hab' : IsChain h b' ((b', v) :: l) := hab ▸ hc0
    have heq := IsChain.unique hab' hsuf
    have hlen := congrArg List.length heq
    rw [hl] at hlen
    simp at hlen
    omega

theorem IsChain.length_le {T : Type} {h : Heap T} {a : Addr} {l : List (Addr × T)}
    (hc : IsChain h a l) : l.length ≤ h.length := by
  have h1 : (l.map Prod.fst).Subperm (addrs h) :=
    List.subperm_of_subset hc.nodup (fun x hx => by
      obtain ⟨y, hy, rfl⟩ := List.mem_map.1 hx
      exact hc.mem_addrs y hy)
  have := h1.length_le
  simpa [addrs] using this

theorem IsChain.of_walk {T : Type} {h : Heap T} {fuel : Nat} {a : Addr} {l : List (Addr × T)}
    (hw : walk h fuel a = some l) : IsChain h a l := by
  induction fuel generalizing a l with
  | zero =>
    by_cases ha : a = nullptr
    · simp [walk, ha] at hw; subst hw; exact ha
    · simp [walk, ha] at hw
  | succ fuel ih =>
    by_cases ha : a = nullptr
    · simp [walk, ha] at hw; subst hw; exact ha
    · cases hd : deref h a with
      | none => simp [walk, ha, hd] at hw
      | some n =>
        simp only [walk, ha, hd, if_false, Option.map_eq_some'] at hw
        obtain ⟨l', hl', rfl⟩ := hw
        exact ⟨rfl, ha, n.next, hd, ih hl'⟩

theorem IsChain.walk {T : Type} {h : Heap T} {a : Addr} {l : List (Addr × T)}
    (hc : IsChain h a l) : ∀ fuel, l.length ≤ fuel → walk h fuel a = some l := by
  induction l generalizing a with
  | nil =>
    intro fuel _
    have ha : a = nullptr := hc
    cases fuel <;> simp [LockFree.walk, ha]
  | cons y l ih =>
    obtain ⟨b, v⟩ := y
    obtain ⟨hab, hnz, nx, hd, hrest⟩ := hc
    intro fuel hfuel
    cases fuel with
    | zero => simp at hfuel
    | succ fuel =>
      have := ih hrest fuel (by simpa using hfuel)
      subst hab
      simp [LockFree.walk, hnz, hd, this]

theorem chain_eq_some_iff {T : Type} (m : LockFreeStackPush T) (l : List (Addr × T)) :
    chain m = some l ↔ IsChain m.heap m.head l :=
  ⟨fun hw => IsChain.of_walk hw, fun hc => hc.walk _ hc.length_le⟩

/-! ## `push` without interference -/

theorem casAttempt_after_snapshot {T : Type} (m : LockFreeStackPush T) (v : T) (a : Addr) :
    casAttempt (snapshot (allocNode m a v) a) a =
      some (true, { head := a, heap := (a, { data := v, next := m.head }) :: m.heap }) := by
  simp [casAttempt, snapshot, allocNode, load, storeNext, deref, compare_exchange_strong]

theorem push_eq {T : Type} (m : LockFreeStackPush T) (v : T) (a : Addr) (fuel : Nat) :
    push m v (some a) (fuel + 1) = some (PushResult.returned
      { head := a, heap := (a, { data := v, next := m.head }) :: m.heap } 0) := by
  simp [push, casLoop, casAttempt_after_snapshot]

theorem IsChain.push {T : Type} {m : LockFreeStackPush T} {l : List (Addr × T)} {a : Addr}
    (v : T) (hc : IsChain m.heap m.head l) (ha : fresh m a) :
    IsChain ((a, { data := v, next := m.head }) :: m.heap) a ((a, v) :: l) := by
  refine ⟨rfl, ha.1, m.head, by simp [deref], ?_⟩
  apply hc.frame
  intro x hx
  apply deref_cons_ne
  intro e
  exact ha.2 (e ▸ hc.mem_addrs x hx)

theorem chain_push {T : Type} {m : LockFreeStackPush T} {l : List (Addr × T)} {a : Addr}
    (v : T) (hc : chain m = some l) (ha : fresh m a) :
    chain { head := a, heap := (a, { data := v, next := m.head }) :: m.heap }
      = some ((a, v) :: l) := by
  rw [chain_eq_some_iff] at hc ⊢
  exact hc.push v ha

theorem payloads_eq_some {T : Type} {m : LockFreeStackPush T} {s : List T}
    (hs : payloads m = some s) : ∃ l, chain m = some l ∧ l.map Prod.snd = s := by
  simpa [payloads] using hs

theorem pushAll_spec {T : Type} (fuel : Nat) (ps : List (T × Addr)) :
    ∀ (m : LockFreeStackPush T) (l : List (Addr × T)), chain m = some l →
      (ps.map Prod.snd).Nodup → (∀ p ∈ ps, fresh m p.2) →
      ∃ m', pushAll (fuel + 1) m ps = some m' ∧
        chain m' = some ((ps.map (fun p => (p.2, p.1))).reverse ++ l) := by
  induction ps with
  | nil => intro m l hl _ _; exact ⟨m, rfl, by simpa using hl⟩
  | cons p ps ih =>
    obtain ⟨v, a⟩ := p
    intro m l hl hnd hfr
    have ha : fresh m a := hfr (v, a) (List.mem_cons_self _ _)
    have hl1 := chain_push v hl ha
    rw [List.map_cons, List.nodup_cons] at hnd
    obtain ⟨m', hm', hc'⟩ := ih _ _ hl1 hnd.2 (by
      intro p hp
      have hp0 := hfr p (List.mem_cons_of_mem _ hp)
      refine ⟨hp0.1, ?_⟩
      simp only [addrs, List.map_cons, List.mem_cons, not_or]
      refine ⟨?_, hp0.2⟩
      intro e
      have hmem : p.2 ∈ ps.map Prod.snd := List.mem_map_of_mem Prod.snd hp
      rw [e] at hmem
      exact hnd.1 hmem)
    refine ⟨m', ?_, ?_⟩
    · simp only [pushAll, push_eq, PushResult.state]
      exact hm'
    · simpa using hc'

theorem set_self_of_getElem? {α : Type} (l : List α) (i : Nat) (c : α) (h : l[i]? = some c) :
    l.set i c = l := by
  apply List.ext_getElem?
  intro j
  by_cases hj : i = j
  · subst hj
    rw [List.getElem?_set]
    simp only [if_true]
    have hlt : i < l.length := by
      by_contra hlt
      rw [List.getElem?_eq_none (by omega)] at h
      cases h
    simp [hlt, h]
  · rw [List.getElem?_set_ne hj]

theorem step_cases {T : Type} {s s' : State T} {a : Action T} {e : Event}
    (h : step s a = some (s', e)) : StepCase s s' e := by
  cases a with
  | invoke v =>
    simp only [step, Option.some.injEq, Prod.mk.injEq] at h
    obtain ⟨rfl, rfl⟩ := h
    exact StepCase.invoke v
  | alloc i r =>
    simp only [step] at h
    cases hc : s.calls[i]? with
    | none => simp [hc] at h
    | some c =>
      simp only [hc] at h
      by_cases hpc : c.pc = PC.line79
      · simp only [hpc, if_true] at h
        cases r with
        | none =>
          simp only [Option.some.injEq, Prod.mk.injEq] at h
          obtain ⟨rfl, rfl⟩ := h
          exact StepCase.allocFail i c hc hpc
        | some a =>
          by_cases ha : fresh s.stack a
          · simp only [ha, if_true, Option.some.injEq, Prod.mk.injEq] at h
            obtain ⟨rfl, rfl⟩ := h
            exact StepCase.alloc i c a hc hpc ha
          · simp [ha] at h
      · simp [hpc] at h
  | load i =>
    simp only [step] at h
    cases hc : s.calls[i]? with
    | none => simp [hc] at h
    | some c =>
      simp only [hc] at h
      by_cases hpc : c.pc = PC.line80
      · simp only [hpc, if_true, Option.some.injEq, Prod.mk.injEq] at h
        obtain ⟨rfl, rfl⟩ := h
        exact StepCase.load i c hc hpc
      · simp [hpc] at h
  | cas i =>
    simp only [step] at h
    cases hc : s.calls[i]? with
    | none => simp [hc] at h
    | some c =>
      simp only [hc] at h
      by_cases hpc : c.pc = PC.line81
      · simp only [hpc, if_true] at h
        cases hn : deref s.stack.heap c.newNode with
        | none => simp [casAttempt, hn] at h
        | some n =>
          by_cases hh : s.stack.head = n.next
          · simp only [casAttempt, hn, compare_exchange_strong, hh, if_true, Option.some.injEq,
              Prod.mk.injEq] at h
            obtain ⟨rfl, h2⟩ := h
            rw [← hh] at h2
            subst h2
            exact StepCase.casOk i c n hc hpc hn hh
          · simp only [casAttempt, hn, compare_exchange_strong, hh, if_false, Option.some.injEq,
              Prod.mk.injEq] at h
            obtain ⟨rfl, rfl⟩ := h
            have := StepCase.casFail i c n hc hpc hn hh
            rw [set_self_of_getElem? _ _ _ hc] at this
            exact this
      · simp [hpc] at h

theorem step_cas_ok {T : Type} {s : State T} {i : Nat} {c : Call T} {n : Node T}
    (hc : s.calls[i]? = some c) (hpc : c.pc = PC.line81)
    (hn : deref s.stack.heap c.newNode = some n) (hh : s.stack.head = n.next) :
    step s (Action.cas i) =
      some ({ stack := { s.stack with head := c.newNode },
              calls := s.calls.set i { c with pc := PC.returned } },
        Event.casOk i s.stack.head c.newNode) := by
  simp [step, hc, hpc, casAttempt, hn, compare_exchange_strong, hh]

theorem step_cas_fail {T : Type} {s : State T} {i : Nat} {c : Call T} {n : Node T}
    (hc : s.calls[i]? = some c) (hpc : c.pc = PC.line81)
    (hn : deref s.stack.heap c.newNode = some n) (hh : s.stack.head ≠ n.next) :
    step s (Action.cas i) =
      some ({ stack := { s.stack with heap := storeNext s.stack.heap c.newNode s.stack.head },
              calls := s.calls },
        Event.casFail i s.stack.head) := by
  simp [step, hc, hpc, casAttempt, hn, compare_exchange_strong, hh]

theorem step_cas {T : Type} {s s' : State T} {i : Nat} {e : Event}
    (h : step s (Action.cas i) = some (s', e)) :
    ∃ c n, s.calls[i]? = some c ∧ c.pc = PC.line81 ∧
      deref s.stack.heap c.newNode = some n ∧
      ((s.stack.head = n.next ∧
          s' = { stack := { s.stack with head := c.newNode },
                 calls := s.calls.set i { c with pc := PC.returned } } ∧
          e = Event.casOk i s.stack.head c.newNode) ∨
        (s.stack.head ≠ n.next ∧
          s' = { stack :=
                   { s.stack with heap := storeNext s.stack.heap c.newNode s.stack.head },
                 calls := s.calls } ∧
          e = Event.casFail i s.stack.head)) := by
  cases hc : s.calls[i]? with
  | none => simp [step, hc] at h
  | some c =>
    by_cases hpc : c.pc = PC.line81
    · cases hn : deref s.stack.heap c.newNode with
      | none => simp [step, hc, hpc, casAttempt, hn] at h
      | some n =>
        refine ⟨c, n, rfl, hpc, hn, ?_⟩
        by_cases hh : s.stack.head = n.next
        · rw [step_cas_ok hc hpc hn hh] at h
          simp only [Option.some.injEq, Prod.mk.injEq] at h
          exact Or.inl ⟨hh, h.1.symm, h.2.symm⟩
        · rw [step_cas_fail hc hpc hn hh] at h
          simp only [Option.some.injEq, Prod.mk.injEq] at h
          exact Or.inr ⟨hh, h.1.symm, h.2.symm⟩
    · simp [step, hc, hpc] at h

theorem step_load {T : Type} {s : State T} {i : Nat} {c : Call T}
    (hc : s.calls[i]? = some c) (hpc : c.pc = PC.line80) :
    step s (Action.load i) =
      some ({ stack := snapshot s.stack c.newNode,
              calls := s.calls.set i { c with pc := PC.line81 } },
        Event.loaded i s.stack.head) := by
  simp [step, hc, hpc, load]

/-! ## Reading the history: basic facts -/

theorem linearized_cons_of_not_casOk {e : Event} (log : List Event) (he : e.isCasOk = false) :
    linearized (e :: log) = linearized log := by
  cases e <;> simp [linearized, Event.isCasOk] at he ⊢

theorem installed_cons_of_not_casOk {e : Event} (log : List Event) (he : e.isCasOk = false) :
    installed (e :: log) = installed log := by
  cases e <;> simp [installed, Event.isCasOk] at he ⊢

theorem replaced_cons_of_not_casOk {e : Event} (log : List Event) (he : e.isCasOk = false) :
    replaced (e :: log) = replaced log := by
  cases e <;> simp [replaced, Event.isCasOk] at he ⊢

theorem headValues_cons_of_not_casOk {e : Event} (h0 : Addr) (log : List Event)
    (he : e.isCasOk = false) : headValues h0 (e :: log) = headValues h0 log := by
  simp [headValues, installed_cons_of_not_casOk log he]

theorem mem_linearized_lt {log : List Event} {n : Nat} (h : ∀ e ∈ log, e.call < n) :
    ∀ i ∈ linearized log, i < n := by
  induction log with
  | nil => intro i hi; cases hi
  | cons e log ih =>
    have ih2 := ih (fun e he => h e (List.mem_cons_of_mem _ he))
    have he := h e (List.mem_cons_self _ _)
    cases e <;> simp only [linearized] <;> try exact ih2
    intro i hi
    rcases List.mem_cons.1 hi with rfl | hi
    · exact he
    · exact ih2 i hi

theorem linked_congr {T : Type} {calls calls' : List (Call T)} {log : List Event}
    (h : ∀ i ∈ linearized log, calls'[i]? = calls[i]?) :
    linked calls' log = linked calls log := by
  unfold linked
  apply List.filterMap_congr
  intro i hi
  rw [h i hi]

theorem mem_linked {T : Type} {calls : List (Call T)} {log : List Event} {x : Addr × T} :
    x ∈ linked calls log ↔
      ∃ i, i ∈ linearized log ∧ ∃ c, calls[i]? = some c ∧ (c.newNode, c.val) = x := by
  simp [linked, List.mem_filterMap]

theorem getElem?_set_some {α : Type} {l : List α} {i j : Nat} {c c' cj : α}
    (hc : l[i]? = some c) (hj : (l.set i c')[j]? = some cj) :
    (j = i ∧ cj = c') ∨ (j ≠ i ∧ l[j]? = some cj) := by
  by_cases hij : i = j
  · subst hij
    have hlt : i < l.length := by
      by_contra hlt
      rw [List.getElem?_eq_none (by omega)] at hc
      cases hc
    rw [List.getElem?_set] at hj
    simp only [if_true, hlt] at hj
    injection hj with hj
    exact Or.inl ⟨rfl, hj.symm⟩
  · rw [List.getElem?_set_ne hij] at hj
    exact Or.inr ⟨fun e => hij e.symm, hj⟩

theorem lt_length_of_getElem? {α : Type} {l : List α} {i : Nat} {c : α} (hc : l[i]? = some c) :
    i < l.length := by
  by_contra hlt
  rw [List.getElem?_eq_none (by omega)] at hc
  cases hc

theorem getElem?_set_self_eq {α : Type} {l : List α} {i : Nat} {c c' : α}
    (hc : l[i]? = some c) : (l.set i c')[i]? = some c' := by
  rw [List.getElem?_set]
  simp [lt_length_of_getElem? hc]

/-! ## The invariant -/

theorem order_cons {log : List Event} {e : Event}
    (h : ∀ (later earlier : List Event) (j : Nat),
      log = later ++ Event.invoked j :: earlier → ∀ e ∈ earlier, e.call < j)
    (he : ∀ j, e = Event.invoked j → ∀ e' ∈ log, e'.call < j) :
    ∀ (later earlier : List Event) (j : Nat),
      e :: log = later ++ Event.invoked j :: earlier → ∀ e ∈ earlier, e.call < j := by
  intro later earlier j hsplit
  cases later with
  | nil =>
    simp only [List.nil_append, List.cons.injEq] at hsplit
    obtain ⟨h1, h2⟩ := hsplit
    rw [← h2]
    exact he j h1
  | cons x later =>
    simp only [List.cons_append, List.cons.injEq] at hsplit
    exact h later earlier j hsplit.2

theorem Inv.not_linked {T : Type} {m0 : LockFreeStackPush T} {l0 : List (Addr × T)}
    {s : State T} {log : List Event} (inv : Inv m0 l0 s log) {i : Nat} {c : Call T}
    (hc : s.calls[i]? = some c) (hn : c.hasNode = true) (hpc : c.pc ≠ PC.returned) :
    ∀ x ∈ linked s.calls log ++ l0, x.1 ≠ c.newNode := by
  intro x hx e
  rcases List.mem_append.1 hx with hx | hx
  · obtain ⟨j, hj, cj, hcj, rfl⟩ := mem_linked.1 hx
    have hret := (inv.returned j cj hcj).2 hj
    have hnj : cj.hasNode = true := by simp [Call.hasNode, hret]
    have := inv.distinct j i cj c hcj hc hnj hn e
    subst this
    rw [hc] at hcj
    injection hcj with hcj
    subst hcj
    exact hpc hret
  · have h1 := inv.initChain.mem_addrs x hx
    exact (inv.node i c hc hn).2.1 (e ▸ h1)

theorem Inv.initial {T : Type} {m0 : LockFreeStackPush T} {l0 : List (Addr × T)}
    (h0 : IsChain m0.heap m0.head l0) : Inv m0 l0 { stack := m0, calls := [] } [] where
  initChain := h0
  chain := by simpa [linked, linearized] using h0
  init := fun a ha => ha
  node := by intro i c hc; simp at hc
  distinct := by intro i j ci cj hc; simp at hc
  returned := by intro i c hc; simp at hc
  ids := by intro e he; cases he
  order := by intro later earlier j h; simp at h
  linNodup := by simp [linearized]
  installed := by simp [linked, linearized, LockFree.installed]
  head := by simp [headValues, LockFree.installed]
  replaced := by simp [headValues, LockFree.installed, LockFree.replaced]

/-! ## The two models of `push` agree -/

theorem getElem?_append_length {α : Type} (l : List α) (c : α) :
    (l ++ [c])[l.length]? = some c := by
  rw [List.getElem?_append_right (Nat.le_refl _)]
  simp

/-- Scheduling the steps of one new call one after another, with no step of another call in
between, changes the stack exactly as the function `push` does. -/
theorem push_agrees_with_steps {T : Type} (s : State T) (log : List Event) (v : T) (a : Addr)
    (ha : fresh s.stack a) :
    ∃ s' log', runFrom (s, log) [Action.invoke v, Action.alloc s.calls.length (some a),
        Action.load s.calls.length, Action.cas s.calls.length] = some (s', log') ∧
      push s.stack v (some a) 1 = some (PushResult.returned s'.stack 0) := by
  have h1 : step s (Action.invoke v) = some
      (State.mk s.stack (s.calls ++ [Call.mk v PC.line79 nullptr]),
        Event.invoked s.calls.length) := rfl
  have hc1 := getElem?_append_length s.calls (Call.mk v PC.line79 nullptr)
  have h2 : step (State.mk s.stack (s.calls ++ [Call.mk v PC.line79 nullptr]))
      (Action.alloc s.calls.length (some a)) = some
      (State.mk (allocNode s.stack a v)
        ((s.calls ++ [Call.mk v PC.line79 nullptr]).set s.calls.length (Call.mk v PC.line80 a)),
        Event.allocated s.calls.length a) := by
    simp [step, hc1, ha]
  have hc2 : ((s.calls ++ [Call.mk v PC.line79 nullptr]).set s.calls.length
      (Call.mk v PC.line80 a))[s.calls.length]? = some (Call.mk v PC.line80 a) :=
    getElem?_set_self_eq hc1
  have h3 := @step_load T
    (State.mk (allocNode s.stack a v)
      ((s.calls ++ [Call.mk v PC.line79 nullptr]).set s.calls.length (Call.mk v PC.line80 a)))
    s.calls.length _ hc2 rfl
  have hc3 : (((s.calls ++ [Call.mk v PC.line79 nullptr]).set s.calls.length
      (Call.mk v PC.line80 a)).set s.calls.length (Call.mk v PC.line81 a))[s.calls.length]? =
      some (Call.mk v PC.line81 a) :=
    getElem?_set_self_eq hc2
  have hd : deref (snapshot (allocNode s.stack a v) a).heap a =
      some { data := v, next := s.stack.head } := by
    simp [snapshot, allocNode, load, storeNext, deref]
  have h4 := @step_cas_ok T
    (State.mk (snapshot (allocNode s.stack a v) a)
      (((s.calls ++ [Call.mk v PC.line79 nullptr]).set s.calls.length
        (Call.mk v PC.line80 a)).set s.calls.length (Call.mk v PC.line81 a)))
    s.calls.length _ _ hc3 rfl hd rfl
  refine ⟨State.mk { head := a, heap := (snapshot (allocNode s.stack a v) a).heap }
      ((((s.calls ++ [Call.mk v PC.line79 nullptr]).set s.calls.length
        (Call.mk v PC.line80 a)).set s.calls.length (Call.mk v PC.line81 a)).set
        s.calls.length (Call.mk v PC.returned a)),
    Event.casOk s.calls.length s.stack.head a :: Event.loaded s.calls.length s.stack.head ::
      Event.allocated s.calls.length a :: Event.invoked s.calls.length :: log, ?_, ?_⟩
  · simp only [runFrom, h1, h2]
    rw [h3]
    simp only []
    rw [h4]
    rfl
  · rw [push_eq]
    simp [snapshot, allocNode, load, storeNext]

/-- A step of call `i` that is not a successful CAS: it changes at most the call's own node. -/
theorem Inv.update {T : Type} {m0 : LockFreeStackPush T} {l0 : List (Addr × T)}
    {s : State T} {log : List Event} (inv : Inv m0 l0 s log) {i : Nat} {c c' : Call T}
    {st : LockFreeStackPush T} {e : Event}
    (hc : s.calls[i]? = some c) (hpc : c.pc ≠ PC.returned) (hpc' : c'.pc ≠ PC.returned)
    (he : e.isCasOk = false) (hinvk : ∀ j, e ≠ Event.invoked j) (hei : e.call = i)
    (hhead : st.head = s.stack.head)
    (hframe : ∀ a,
      deref st.heap a = deref s.stack.heap a ∨ (a = c'.newNode ∧ c'.hasNode = true))
    (hnode : c'.hasNode = true → c'.newNode ≠ nullptr ∧
      ∃ nx, deref st.heap c'.newNode = some { data := c'.val, next := nx })
    (hown : c'.hasNode = true →
      (c.hasNode = true ∧ c'.newNode = c.newNode) ∨ c'.newNode ∉ addrs s.stack.heap) :
    Inv m0 l0 { stack := st, calls := s.calls.set i c' } (e :: log) := by
  have hilin : i ∉ linearized log := fun h => hpc ((inv.returned i c hc).2 h)
  have hlinked : linked (s.calls.set i c') (e :: log) = linked s.calls log := by
    rw [linked, linearized_cons_of_not_casOk log he, ← linked]
    apply linked_congr
    intro j hj
    have : i ≠ j := fun e => hilin (e ▸ hj)
    rw [List.getElem?_set_ne this]
  have hnotin : c'.hasNode = true → ∀ x ∈ linked s.calls log ++ l0, x.1 ≠ c'.newNode := by
    intro hn' x hx
    rcases hown hn' with ⟨hn, heq⟩ | hfr
    · rw [heq]; exact inv.not_linked hc hn hpc x hx
    · intro e
      exact hfr (e ▸ inv.chain.mem_addrs x hx)
  have hother : ∀ j cj, j ≠ i → s.calls[j]? = some cj → cj.hasNode = true →
      c'.hasNode = true → cj.newNode ≠ c'.newNode := by
    intro j cj hji hcj hnj hn' e
    rcases hown hn' with ⟨hn, heq⟩ | hfr
    · exact hji (inv.distinct j i cj c hcj hc hnj hn (e.trans heq))
    · obtain ⟨_, _, nx, hd⟩ := inv.node j cj hcj hnj
      exact hfr (e ▸ mem_addrs_of_deref hd)
  refine
    { initChain := inv.initChain, chain := ?_, init := ?_, node := ?_, distinct := ?_,
      returned := ?_, ids := ?_, linNodup := ?_, installed := ?_, head := ?_, replaced := ?_,
      order := order_cons inv.order (fun j hj => absurd hj (hinvk j)) }
  · show IsChain st.heap st.head (linked (s.calls.set i c') (e :: log) ++ l0)
    rw [hlinked, hhead]
    apply inv.chain.frame
    intro x hx
    rcases hframe x.1 with h | ⟨h1, h2⟩
    · exact h
    · exact absurd h1 (hnotin h2 x hx)
  · intro a ha
    have h1 := inv.init a ha
    show a ∈ addrs st.heap
    rcases hframe a with h | ⟨h1', h2⟩
    · by_contra hcon
      rw [← deref_eq_none_iff, h, deref_eq_none_iff] at hcon
      exact hcon h1
    · obtain ⟨_, nx, hd⟩ := hnode h2
      exact h1' ▸ mem_addrs_of_deref hd
  · intro j cj hcj hnj
    rcases getElem?_set_some hc hcj with ⟨rfl, rfl⟩ | ⟨hji, hcj⟩
    · refine ⟨(hnode hnj).1, ?_, (hnode hnj).2⟩
      rcases hown hnj with ⟨hn, heq⟩ | hfr
      · rw [heq]; exact (inv.node _ c hc hn).2.1
      · exact fun h => hfr (inv.init _ h)
    · obtain ⟨h1, h2, nx, hd⟩ := inv.node j cj hcj hnj
      refine ⟨h1, h2, nx, ?_⟩
      show deref st.heap cj.newNode = _
      rcases hframe cj.newNode with h | ⟨h1', h2'⟩
      · rw [h, hd]
      · exact absurd h1' (hother j cj hji hcj hnj h2')
  · intro j k cj ck hcj hck hnj hnk heq
    rcases getElem?_set_some hc hcj with ⟨hj1, hj2⟩ | ⟨hji, hcj1⟩
    · rcases getElem?_set_some hc hck with ⟨hk1, hk2⟩ | ⟨hki, hck1⟩
      · rw [hj1, hk1]
      · subst hj2
        exact absurd heq.symm (hother k ck hki hck1 hnk hnj)
    · rcases getElem?_set_some hc hck with ⟨hk1, hk2⟩ | ⟨hki, hck1⟩
      · subst hk2
        exact absurd heq (hother j cj hji hcj1 hnj hnk)
      · exact inv.distinct j k cj ck hcj1 hck1 hnj hnk heq
  · intro j cj hcj
    rw [linearized_cons_of_not_casOk log he]
    rcases getElem?_set_some hc hcj with ⟨rfl, rfl⟩ | ⟨hji, hcj⟩
    · exact ⟨fun h => absurd h hpc', fun h => absurd h hilin⟩
    · exact inv.returned j cj hcj
  · intro e' he'
    show e'.call < (s.calls.set i c').length
    rw [List.length_set]
    rcases List.mem_cons.1 he' with rfl | he'
    · rw [hei]; exact lt_length_of_getElem? hc
    · exact inv.ids e' he'
  · rw [linearized_cons_of_not_casOk log he]; exact inv.linNodup
  · show (linked (s.calls.set i c') (e :: log)).map Prod.fst = LockFree.installed (e :: log)
    rw [hlinked, installed_cons_of_not_casOk log he]; exact inv.installed
  · show (headValues m0.head (e :: log)).head? = some st.head
    rw [headValues_cons_of_not_casOk _ log he, hhead]; exact inv.head
  · rw [replaced_cons_of_not_casOk log he, headValues_cons_of_not_casOk _ log he]
    exact inv.replaced

/-- A new call is invoked. -/
theorem Inv.invoke {T : Type} {m0 : LockFreeStackPush T} {l0 : List (Addr × T)}
    {s : State T} {log : List Event} (inv : Inv m0 l0 s log) (v : T) :
    Inv m0 l0 { s with calls := s.calls ++ [{ val := v, pc := PC.line79, newNode := nullptr }] }
      (Event.invoked s.calls.length :: log) := by
  have he : (Event.invoked s.calls.length).isCasOk = false := rfl
  have hold : ∀ j cj,
      (s.calls ++ [({ val := v, pc := PC.line79, newNode := nullptr } : Call T)])[j]? = some cj →
      s.calls[j]? = some cj ∨ (cj.pc = PC.line79 ∧ j = s.calls.length) := by
    intro j cj hcj
    rw [List.getElem?_append] at hcj
    by_cases hj : j < s.calls.length
    · simp only [hj, if_true] at hcj; exact Or.inl hcj
    · simp only [hj, if_false] at hcj
      have hj0 : j - s.calls.length = 0 := by
        by_contra hne
        rw [List.getElem?_eq_none (by simp; omega)] at hcj
        cases hcj
      rw [hj0] at hcj
      simp at hcj
      subst hcj
      exact Or.inr ⟨rfl, by omega⟩
  have hlinked : linked (s.calls ++ [{ val := v, pc := PC.line79, newNode := nullptr }])
      (Event.invoked s.calls.length :: log) = linked s.calls log := by
    rw [linked, linearized_cons_of_not_casOk log he, ← linked]
    apply linked_congr
    intro j hj
    have := mem_linearized_lt inv.ids j hj
    rw [List.getElem?_append_left this]
  refine
    { initChain := inv.initChain, chain := ?_, init := inv.init, node := ?_, distinct := ?_,
      returned := ?_, ids := ?_, linNodup := ?_, installed := ?_, head := ?_, replaced := ?_,
      order := order_cons inv.order (fun j hj => by
        injection hj with hj
        rw [← hj]
        exact inv.ids) }
  · show IsChain s.stack.heap s.stack.head (linked _ _ ++ l0)
    rw [hlinked]; exact inv.chain
  · intro j cj hcj hnj
    rcases hold j cj hcj with h | ⟨h, _⟩
    · exact inv.node j cj h hnj
    · simp [Call.hasNode, h] at hnj
  · intro j k cj ck hcj hck hnj hnk heq
    rcases hold j cj hcj with hj | ⟨hj, _⟩
    · rcases hold k ck hck with hk | ⟨hk, _⟩
      · exact inv.distinct j k cj ck hj hk hnj hnk heq
      · simp [Call.hasNode, hk] at hnk
    · simp [Call.hasNode, hj] at hnj
  · intro j cj hcj
    rw [linearized_cons_of_not_casOk log he]
    rcases hold j cj hcj with hj | ⟨hj, hjl⟩
    · exact inv.returned j cj hj
    · constructor
      · intro h; rw [hj] at h; cases h
      · intro h
        have := mem_linearized_lt inv.ids j h
        omega
  · intro e' he'
    show e'.call < (s.calls ++ [_]).length
    rw [List.length_append, List.length_singleton]
    rcases List.mem_cons.1 he' with rfl | he'
    · exact Nat.lt_succ_self _
    · exact Nat.lt_succ_of_lt (inv.ids e' he')
  · rw [linearized_cons_of_not_casOk log he]; exact inv.linNodup
  · show (linked _ _).map Prod.fst = LockFree.installed _
    rw [hlinked, installed_cons_of_not_casOk log he]; exact inv.installed
  · show (headValues m0.head _).head? = some s.stack.head
    rw [headValues_cons_of_not_casOk _ log he]; exact inv.head
  · rw [replaced_cons_of_not_casOk log he, headValues_cons_of_not_casOk _ log he]
    exact inv.replaced

theorem headValues_casOk (h0 : Addr) (log : List Event) (i : Nat) (old node : Addr) :
    headValues h0 (Event.casOk i old node :: log) = node :: headValues h0 log := rfl

/-- The CAS of call `i` succeeds. -/
theorem Inv.casOk {T : Type} {m0 : LockFreeStackPush T} {l0 : List (Addr × T)}
    {s : State T} {log : List Event} (inv : Inv m0 l0 s log) {i : Nat} {c : Call T}
    {n : Node T} (hc : s.calls[i]? = some c) (hpc : c.pc = PC.line81)
    (hn : deref s.stack.heap c.newNode = some n) (hh : s.stack.head = n.next) :
    Inv m0 l0 { stack := { s.stack with head := c.newNode },
                calls := s.calls.set i { c with pc := PC.returned } }
      (Event.casOk i s.stack.head c.newNode :: log) := by
  have hnode : c.hasNode = true := by simp [Call.hasNode, hpc]
  have hilin : i ∉ linearized log := fun h => by
    have := (inv.returned i c hc).2 h
    rw [hpc] at this
    cases this
  have hi : i < s.calls.length := lt_length_of_getElem? hc
  have hlinked0 : linked (s.calls.set i { c with pc := PC.returned }) log = linked s.calls log := by
    apply linked_congr
    intro j hj
    have : i ≠ j := fun e => hilin (e ▸ hj)
    rw [List.getElem?_set_ne this]
  have hlinked : linked (s.calls.set i { c with pc := PC.returned })
      (Event.casOk i s.stack.head c.newNode :: log) = (c.newNode, c.val) :: linked s.calls log := by
    rw [← hlinked0]
    simp [linked, linearized, List.getElem?_set, hi]
  have hold : ∀ j cj, (s.calls.set i { c with pc := PC.returned })[j]? = some cj →
      ∃ cj0, s.calls[j]? = some cj0 ∧ cj0.newNode = cj.newNode ∧ cj0.val = cj.val ∧
        (cj.hasNode = true → cj0.hasNode = true) ∧ (j ≠ i → cj0 = cj) := by
    intro j cj hcj
    rcases getElem?_set_some hc hcj with ⟨rfl, rfl⟩ | ⟨hji, hcj1⟩
    · exact ⟨c, hc, rfl, rfl, fun _ => hnode, fun h => absurd rfl h⟩
    · exact ⟨cj, hcj1, rfl, rfl, fun h => h, fun _ => rfl⟩
  refine
    { initChain := inv.initChain, chain := ?_, init := inv.init, node := ?_, distinct := ?_,
      returned := ?_, ids := ?_, linNodup := ?_, installed := ?_, head := ?_, replaced := ?_,
      order := order_cons inv.order (fun j hj => by cases hj) }
  · show IsChain s.stack.heap c.newNode (linked _ _ ++ l0)
    rw [hlinked]
    obtain ⟨hnz, _, nx, hd⟩ := inv.node i c hc hnode
    refine ⟨rfl, hnz, nx, hd, ?_⟩
    rw [hd] at hn
    injection hn with hn
    rw [← hn] at hh
    simp only at hh
    rw [← hh]
    exact inv.chain
  · intro j cj hcj hnj
    obtain ⟨cj0, h0, h1, h2, h3, _⟩ := hold j cj hcj
    have := inv.node j cj0 h0 (h3 hnj)
    rw [h1, h2] at this
    exact this
  · intro j k cj ck hcj hck hnj hnk heq
    obtain ⟨cj0, hj0, hj1, _, hj3, _⟩ := hold j cj hcj
    obtain ⟨ck0, hk0, hk1, _, hk3, _⟩ := hold k ck hck
    exact inv.distinct j k cj0 ck0 hj0 hk0 (hj3 hnj) (hk3 hnk) (by rw [hj1, hk1, heq])
  · intro j cj hcj
    simp only [linearized, List.mem_cons]
    rcases getElem?_set_some hc hcj with ⟨rfl, rfl⟩ | ⟨hji, hcj1⟩
    · simp
    · rw [inv.returned j cj hcj1]
      simp [hji]
  · intro e' he'
    show e'.call < (s.calls.set i _).length
    rw [List.length_set]
    rcases List.mem_cons.1 he' with rfl | he'
    · exact hi
    · exact inv.ids e' he'
  · simp only [linearized, List.nodup_cons]
    exact ⟨hilin, inv.linNodup⟩
  · show (linked _ _).map Prod.fst = LockFree.installed _
    rw [hlinked]
    simp [LockFree.installed, inv.installed]
  · show (headValues m0.head _).head? = some c.newNode
    rw [headValues_casOk]; rfl
  · rw [headValues_casOk]
    simp only [LockFree.replaced, List.tail_cons]
    have := inv.head
    cases hv : headValues m0.head log with
    | nil => simp [headValues] at hv
    | cons x t =>
      rw [hv] at this
      simp only [List.head?_cons, Option.some.injEq] at this
      rw [inv.replaced, hv, this]; rfl

/-- Every step preserves the invariant. -/
theorem Inv.step {T : Type} {m0 : LockFreeStackPush T} {l0 : List (Addr × T)}
    {s s' : State T} {log : List Event} {a : Action T} {e : Event} (inv : Inv m0 l0 s log)
    (h : step s a = some (s', e)) : Inv m0 l0 s' (e :: log) := by
  cases step_cases h with
  | invoke v => exact inv.invoke v
  | allocFail i c hc hpc =>
    refine inv.update hc (by rw [hpc]; decide) (by simp) rfl (fun j hj => by cases hj) rfl rfl
      (fun a => Or.inl rfl) ?_ ?_
    · intro h; simp [Call.hasNode] at h
    · intro h; simp [Call.hasNode] at h
  | alloc i c a hc hpc ha =>
    refine inv.update hc (by rw [hpc]; decide) (by simp) rfl (fun j hj => by cases hj) rfl rfl
      ?_ ?_ ?_
    · intro a'
      by_cases h : a' = a
      · exact Or.inr ⟨h, by simp [Call.hasNode]⟩
      · exact Or.inl (deref_cons_ne _ _ _ _ h)
    · intro _
      exact ⟨ha.1, nullptr, by simp [allocNode, deref]⟩
    · intro _
      exact Or.inr ha.2
  | load i c hc hpc =>
    have hnode : c.hasNode = true := by simp [Call.hasNode, hpc]
    obtain ⟨hnz, _, nx, hd⟩ := inv.node i c hc hnode
    refine inv.update hc (by rw [hpc]; decide) (by simp) rfl (fun j hj => by cases hj) rfl rfl
      ?_ ?_ ?_
    · intro a'
      by_cases h : a' = c.newNode
      · exact Or.inr ⟨h, by simp [Call.hasNode]⟩
      · exact Or.inl (deref_storeNext_ne _ _ _ _ h)
    · intro _
      exact ⟨hnz, load s.stack, by simp [snapshot, deref_storeNext_self, hd]⟩
    · intro _
      exact Or.inl ⟨hnode, rfl⟩
  | casOk i c n hc hpc hn hh => exact inv.casOk hc hpc hn hh
  | casFail i c n hc hpc hn hh =>
    have hnode : c.hasNode = true := by simp [Call.hasNode, hpc]
    obtain ⟨hnz, _, nx, hd⟩ := inv.node i c hc hnode
    refine inv.update hc (by rw [hpc]; decide) (by rw [hpc]; decide) rfl
      (fun j hj => by cases hj) rfl rfl ?_ ?_ ?_
    · intro a'
      by_cases h : a' = c.newNode
      · exact Or.inr ⟨h, hnode⟩
      · exact Or.inl (deref_storeNext_ne _ _ _ _ h)
    · intro _
      exact ⟨hnz, s.stack.head, by simp [deref_storeNext_self, hd]⟩
    · intro _
      exact Or.inl ⟨hnode, rfl⟩

theorem Inv.runFrom {T : Type} {m0 : LockFreeStackPush T} {l0 : List (Addr × T)}
    (acts : List (Action T)) :
    ∀ {s s' : State T} {log log' : List Event}, Inv m0 l0 s log →
      runFrom (s, log) acts = some (s', log') → Inv m0 l0 s' log' := by
  induction acts with
  | nil =>
    intro s s' log log' inv h
    simp only [LockFree.runFrom, Option.some.injEq, Prod.mk.injEq] at h
    obtain ⟨rfl, rfl⟩ := h
    exact inv
  | cons a rest ih =>
    intro s s' log log' inv h
    simp only [LockFree.runFrom] at h
    cases hs : LockFree.step s a with
    | none => simp [hs] at h
    | some r =>
      obtain ⟨s1, e⟩ := r
      simp only [hs] at h
      exact ih (inv.step hs) h

/-- The invariant holds in every state an execution reaches. -/
theorem Inv.run {T : Type} {m0 : LockFreeStackPush T} {l0 : List (Addr × T)}
    {acts : List (Action T)} {s : State T} {log : List Event}
    (h0 : LockFree.chain m0 = some l0) (h : LockFree.run m0 acts = some (s, log)) :
    Inv m0 l0 s log :=
  Inv.runFrom acts (Inv.initial ((chain_eq_some_iff _ _).1 h0)) h

/-! ## Consequences of the invariant -/

theorem Inv.chain_eq {T : Type} {m0 : LockFreeStackPush T} {l0 : List (Addr × T)}
    {s : State T} {log : List Event} (inv : Inv m0 l0 s log) :
    LockFree.chain s.stack = some (linked s.calls log ++ l0) :=
  (chain_eq_some_iff _ _).2 inv.chain

theorem filterMap_range_getElem? {α β : Type} (g : α → β) (l : List α) :
    (List.range l.length).filterMap (fun i => (l[i]?).map g) = l.map g := by
  induction l using List.reverseRecOn with
  | nil => rfl
  | append_singleton l x ih =>
    rw [List.length_append, List.length_singleton, List.range_succ, List.filterMap_append,
      List.map_append]
    congr 1
    · rw [← ih]
      apply List.filterMap_congr
      intro i hi
      rw [List.getElem?_append_left (List.mem_range.1 hi)]
    · simp

theorem mem_linearized_iff {log : List Event} {i : Nat} :
    i ∈ linearized log ↔ ∃ old node, Event.casOk i old node ∈ log := by
  induction log with
  | nil => simp [linearized]
  | cons e log ih =>
    cases e <;> simp [linearized, ih]
    rename_i j old node
    constructor
    · rintro (rfl | ⟨o, n, h⟩)
      · exact ⟨old, node, Or.inl ⟨rfl, rfl, rfl⟩⟩
      · exact ⟨o, n, Or.inr h⟩
    · rintro ⟨o, n, (⟨rfl, _, _⟩ | h)⟩
      · exact Or.inl rfl
      · exact Or.inr ⟨o, n, h⟩

theorem Inv.linked_perm {T : Type} {m0 : LockFreeStackPush T} {l0 : List (Addr × T)}
    {s : State T} {log : List Event} (inv : Inv m0 l0 s log)
    (hall : ∀ c ∈ s.calls, c.pc = PC.returned) :
    (linked s.calls log).Perm (s.calls.map (fun c => (c.newNode, c.val))) := by
  have hperm : (linearized log).Perm (List.range s.calls.length) := by
    rw [List.perm_ext_iff_of_nodup inv.linNodup (List.nodup_range _)]
    intro i
    rw [List.mem_range]
    constructor
    · exact mem_linearized_lt inv.ids i
    · intro hi
      have hc : s.calls[i]? = some s.calls[i] := List.getElem?_eq_getElem hi
      exact (inv.returned i _ hc).1 (hall _ (List.getElem_mem hi))
  have := hperm.filterMap (fun i => (s.calls[i]?).map (fun c => (c.newNode, c.val)))
  rw [filterMap_range_getElem?] at this
  exact this

/-! ## Steps of one call leave the other calls alone -/

theorem step_head {T : Type} {s s' : State T} {a : Action T} {e : Event}
    (h : step s a = some (s', e)) (he : e.isCasOk = false) : s'.stack.head = s.stack.head := by
  cases step_cases h with
  | casOk i c n hc hpc hn hh => simp [Event.isCasOk] at he
  | _ => rfl

theorem Inv.step_frame {T : Type} {m0 : LockFreeStackPush T} {l0 : List (Addr × T)}
    {s s' : State T} {log : List Event} {a : Action T} {e : Event} (inv : Inv m0 l0 s log)
    (h : LockFree.step s a = some (s', e)) (j : Nat) (cj : Call T)
    (hcj : s'.calls[j]? = some cj)
    (hj : j ≠ e.call) :
    s.calls[j]? = some cj ∧
      (cj.hasNode = true → deref s'.stack.heap cj.newNode = deref s.stack.heap cj.newNode) := by
  cases step_cases h with
  | invoke v =>
    simp only [Event.call] at hj
    have hlt : j < s.calls.length := by
      have := lt_length_of_getElem? hcj
      simp only [List.length_append, List.length_singleton] at this
      omega
    rw [List.getElem?_append_left hlt] at hcj
    exact ⟨hcj, fun _ => rfl⟩
  | allocFail i c hc hpc =>
    simp only [Event.call] at hj
    rw [List.getElem?_set_ne (fun e => hj e.symm)] at hcj
    exact ⟨hcj, fun _ => rfl⟩
  | alloc i c a hc hpc ha =>
    simp only [Event.call] at hj
    rw [List.getElem?_set_ne (fun e => hj e.symm)] at hcj
    refine ⟨hcj, fun hn => ?_⟩
    obtain ⟨_, _, nx, hd⟩ := inv.node j cj hcj hn
    apply deref_cons_ne
    intro e
    exact ha.2 (e ▸ mem_addrs_of_deref hd)
  | load i c hc hpc =>
    simp only [Event.call] at hj
    rw [List.getElem?_set_ne (fun e => hj e.symm)] at hcj
    refine ⟨hcj, fun hn => ?_⟩
    apply deref_storeNext_ne
    intro e
    exact hj (inv.distinct j i cj c hcj hc hn (by simp [Call.hasNode, hpc]) e)
  | casOk i c n hc hpc hn hh =>
    simp only [Event.call] at hj
    rw [List.getElem?_set_ne (fun e => hj e.symm)] at hcj
    exact ⟨hcj, fun _ => rfl⟩
  | casFail i c n hc hpc hn hh =>
    simp only [Event.call] at hj
    rw [List.getElem?_set_ne (fun e => hj e.symm)] at hcj
    refine ⟨hcj, fun hn => ?_⟩
    apply deref_storeNext_ne
    intro e
    exact hj (inv.distinct j i cj c hcj hc hn (by simp [Call.hasNode, hpc]) e)

/-! ## Snapshots -/

theorem isSnapshotOf_call {e : Event} {i : Nat} (h : e.isSnapshotOf i = true) : e.call = i := by
  cases e <;> simp [Event.isSnapshotOf, Event.call] at h ⊢ <;> exact h

theorem sinceSnapshot_cons_of_ne {e : Event} {i : Nat} (log : List Event) (h : i ≠ e.call) :
    sinceSnapshot i (e :: log) = e :: sinceSnapshot i log := by
  have : e.isSnapshotOf i = false := by
    cases hs : e.isSnapshotOf i with
    | false => rfl
    | true => exact absurd (isSnapshotOf_call hs).symm h
  simp [sinceSnapshot, List.takeWhile, this]

theorem sinceSnapshot_cons_self {e : Event} {i : Nat} (log : List Event)
    (h : e.isSnapshotOf i = true) : sinceSnapshot i (e :: log) = [] := by
  simp [sinceSnapshot, List.takeWhile, h]

theorem mem_headValues_of_head {h0 : Addr} {log : List Event} {a : Addr}
    (h : (headValues h0 log).head? = some a) : a ∈ headValues h0 log :=
  List.mem_of_mem_head? h

theorem Inv.init_head {T : Type} {m0 : LockFreeStackPush T} {l0 : List (Addr × T)}
    {s : State T} {log : List Event} (inv : Inv m0 l0 s log) :
    m0.head = nullptr ∨ m0.head ∈ l0.map Prod.fst := by
  have h := inv.initChain
  cases l0 with
  | nil => exact Or.inl h
  | cons x l0 =>
    obtain ⟨b, v⟩ := x
    exact Or.inr (by simp [h.1])

theorem Inv.headValues_sub {T : Type} {m0 : LockFreeStackPush T} {l0 : List (Addr × T)}
    {s : State T} {log : List Event} (inv : Inv m0 l0 s log) :
    ∀ a ∈ headValues m0.head log,
      a = nullptr ∨ a ∈ (linked s.calls log ++ l0).map Prod.fst := by
  intro a ha
  rcases List.mem_append.1 ha with h | h
  · rw [← inv.installed] at h
    exact Or.inr (by rw [List.map_append]; exact List.mem_append_left _ h)
  · rw [List.mem_singleton] at h
    rcases inv.init_head with h1 | h1
    · exact Or.inl (h ▸ h1)
    · exact Or.inr (by rw [List.map_append, h]; exact List.mem_append_right _ h1)

/-- The node of a call whose CAS has not succeeded has never been a value of `head`. -/
theorem Inv.newNode_not_head {T : Type} {m0 : LockFreeStackPush T} {l0 : List (Addr × T)}
    {s : State T} {log : List Event} (inv : Inv m0 l0 s log) {i : Nat} {c : Call T}
    (hc : s.calls[i]? = some c) (hn : c.hasNode = true) (hpc : c.pc ≠ PC.returned) :
    c.newNode ∉ headValues m0.head log := by
  intro hmem
  rcases inv.headValues_sub _ hmem with h | h
  · exact (inv.node i c hc hn).1 h
  · obtain ⟨x, hx, hxe⟩ := List.mem_map.1 h
    exact inv.not_linked hc hn hpc x hx hxe

/-- The values of `head` are pairwise different. -/
theorem Inv.headValues_nodup {T : Type} {m0 : LockFreeStackPush T} {l0 : List (Addr × T)}
    {s : State T} {log : List Event} (inv : Inv m0 l0 s log) :
    (headValues m0.head log).Nodup := by
  have hnd := inv.chain.nodup
  rw [List.map_append, inv.installed] at hnd
  have hnd1 := (List.nodup_append.1 hnd).1
  unfold headValues
  rw [List.nodup_append]
  refine ⟨hnd1, List.nodup_singleton _, ?_⟩
  intro a ha hb
  rw [List.mem_singleton] at hb
  subst hb
  rcases inv.init_head with h1 | h1
  · rw [← inv.installed] at ha
    obtain ⟨x, hx, hxe⟩ := List.mem_map.1 ha
    exact inv.chain.ne_null x (List.mem_append_left _ hx) (hxe.trans h1)
  · exact (List.nodup_append.1 hnd).2.2 ha h1

theorem SnapInv.snap_initial {T : Type} (m0 : LockFreeStackPush T) :
    SnapInv m0 { stack := m0, calls := [] } [] := by
  intro i c hc
  simp at hc

theorem getElem?_set_self_of {α : Type} {l : List α} {i : Nat} {c c' cj : α}
    (hc : l[i]? = some c) (hj : (l.set i c')[i]? = some cj) : cj = c' := by
  rcases getElem?_set_some hc hj with ⟨_, h⟩ | ⟨h, _⟩
  · exact h
  · exact absurd rfl h

/-- Every step preserves the invariant about snapshots. -/
theorem SnapInv.snap_step {T : Type} {m0 : LockFreeStackPush T} {l0 : List (Addr × T)}
    {s s' : State T} {log : List Event} {a : Action T} {e : Event} (inv : Inv m0 l0 s log)
    (sn : SnapInv m0 s log) (h : LockFree.step s a = some (s', e)) :
    SnapInv m0 s' (e :: log) := by
  intro j cj hcj hpc
  by_cases hj : j = e.call
  · cases step_cases h with
    | invoke v =>
      simp only [Event.call] at hj
      subst hj
      rw [List.getElem?_append_right (Nat.le_refl _)] at hcj
      simp at hcj
      subst hcj
      cases hpc
    | allocFail i c hc hpc0 =>
      simp only [Event.call] at hj
      subst hj
      have := getElem?_set_self_of hc hcj
      subst this
      cases hpc
    | alloc i c a hc hpc0 ha =>
      simp only [Event.call] at hj
      subst hj
      have := getElem?_set_self_of hc hcj
      subst this
      cases hpc
    | casOk i c n hc hpc0 hn hh =>
      simp only [Event.call] at hj
      subst hj
      have := getElem?_set_self_of hc hcj
      subst this
      cases hpc
    | load i c hc hpc0 =>
      simp only [Event.call] at hj
      subst hj
      have := getElem?_set_self_of hc hcj
      subst this
      obtain ⟨_, _, nx, hd⟩ := inv.node j c hc (by simp [Call.hasNode, hpc0])
      have hsnap : (Event.loaded j s.stack.head).isSnapshotOf j = true := by
        simp [Event.isSnapshotOf]
      have hnok : (Event.loaded j s.stack.head).isCasOk = false := rfl
      refine ⟨s.stack.head, ?_, ?_, ?_, ?_⟩
      · simp [snapshot, load, deref_storeNext_self, hd]
      · rw [sinceSnapshot_cons_self _ hsnap]
        simp [snapshot]
      · rw [headValues_cons_of_not_casOk _ _ hnok]
        exact mem_headValues_of_head inv.head
      · refine ⟨_, log, ?_, Or.inl rfl⟩
        rw [sinceSnapshot_cons_self _ hsnap]
        rfl
    | casFail i c n hc hpc0 hn hh =>
      simp only [Event.call] at hj
      subst hj
      have := getElem?_set_self_of hc hcj
      subst this
      obtain ⟨_, _, nx, hd⟩ := inv.node j cj hc (by simp [Call.hasNode, hpc0])
      have hsnap : (Event.casFail j s.stack.head).isSnapshotOf j = true := by
        simp [Event.isSnapshotOf]
      have hnok : (Event.casFail j s.stack.head).isCasOk = false := rfl
      refine ⟨s.stack.head, ?_, ?_, ?_, ?_⟩
      · simp [deref_storeNext_self, hd]
      · rw [sinceSnapshot_cons_self _ hsnap]
        simp
      · rw [headValues_cons_of_not_casOk _ _ hnok]
        exact mem_headValues_of_head inv.head
      · refine ⟨_, log, ?_, Or.inr rfl⟩
        rw [sinceSnapshot_cons_self _ hsnap]
        rfl
  · obtain ⟨hcj0, hd⟩ := inv.step_frame h j cj hcj hj
    obtain ⟨nx, hdn, hiff, hmem, e0, earlier, hsplit, he0⟩ := sn j cj hcj0 hpc
    have hnode : cj.hasNode = true := by simp [Call.hasNode, hpc]
    rw [sinceSnapshot_cons_of_ne log hj]
    refine ⟨nx, by rw [hd hnode, hdn], ?_, ?_, e0, earlier, ?_, he0⟩
    · cases he : e.isCasOk with
      | false =>
        rw [step_head h he, hiff]
        simp [he]
      | true =>
        cases step_cases h with
        | casOk i c n hc hpc0 hn hh =>
          have hne : nx ≠ c.newNode := by
            intro heq
            exact inv.newNode_not_head hc (by simp [Call.hasNode, hpc0]) (by rw [hpc0]; decide)
              (heq ▸ hmem)
          constructor
          · intro heq; exact absurd heq hne
          · intro hall
            have := hall _ (List.mem_cons_self _ _)
            simp [Event.isCasOk] at this
        | invoke v => simp [Event.isCasOk] at he
        | allocFail i c hc hpc0 => simp [Event.isCasOk] at he
        | alloc i c a hc hpc0 ha => simp [Event.isCasOk] at he
        | load i c hc hpc0 => simp [Event.isCasOk] at he
        | casFail i c n hc hpc0 hn hh => simp [Event.isCasOk] at he
    · cases he : e.isCasOk with
      | false => rw [headValues_cons_of_not_casOk _ _ he]; exact hmem
      | true =>
        cases e <;> simp [Event.isCasOk] at he
        rw [headValues_casOk]
        exact List.mem_cons_of_mem _ hmem
    · rw [List.cons_append, ← hsplit]

theorem SnapInv.snap_runFrom {T : Type} {m0 : LockFreeStackPush T} {l0 : List (Addr × T)}
    (acts : List (Action T)) :
    ∀ {s s' : State T} {log log' : List Event}, Inv m0 l0 s log → SnapInv m0 s log →
      LockFree.runFrom (s, log) acts = some (s', log') → SnapInv m0 s' log' := by
  induction acts with
  | nil =>
    intro s s' log log' _ sn h
    simp only [LockFree.runFrom, Option.some.injEq, Prod.mk.injEq] at h
    obtain ⟨rfl, rfl⟩ := h
    exact sn
  | cons a rest ih =>
    intro s s' log log' inv sn h
    simp only [LockFree.runFrom] at h
    cases hs : LockFree.step s a with
    | none => simp [hs] at h
    | some r =>
      obtain ⟨s1, e⟩ := r
      simp only [hs] at h
      exact ih (inv.step hs) (sn.snap_step inv hs) h

/-- The invariant about snapshots holds in every state an execution reaches. -/
theorem SnapInv.snap_run {T : Type} {m0 : LockFreeStackPush T} {l0 : List (Addr × T)}
    {acts : List (Action T)} {s : State T} {log : List Event}
    (h0 : LockFree.chain m0 = some l0) (h : LockFree.run m0 acts = some (s, log)) :
    SnapInv m0 s log :=
  SnapInv.snap_runFrom acts (Inv.initial ((chain_eq_some_iff _ _).1 h0))
    (SnapInv.snap_initial m0) h

theorem mem_linearized_of_casOk {log : List Event} {e : Event} (he : e ∈ log)
    (hok : e.isCasOk = true) : e.call ∈ linearized log := by
  cases e <;> simp [Event.isCasOk] at hok
  exact mem_linearized_iff.2 ⟨_, _, he⟩

theorem sinceSnapshot_subset (i : Nat) (log : List Event) :
    ∀ e ∈ sinceSnapshot i log, e ∈ log :=
  fun _ he => List.takeWhile_subset _ he

/-! ## Counting failed attempts -/

theorem any_isCasOkOf_iff {log : List Event} {i : Nat} :
    log.any (fun e => e.isCasOkOf i) = true ↔ i ∈ linearized log := by
  induction log with
  | nil => simp [linearized]
  | cons e log ih =>
    rw [List.any_cons, Bool.or_eq_true, ih]
    cases e <;> simp [linearized, Event.isCasOkOf]
    rename_i j old node
    constructor
    · rintro (h | h)
      · exact Or.inl h.symm
      · exact Or.inr h
    · rintro (h | h)
      · exact Or.inl h.symm
      · exact Or.inr h

theorem whileRunning_cons_returned {log : List Event} {i : Nat} {e : Event}
    (hlin : i ∈ linearized log) (he : e.isCasOkOf i = false) :
    whileRunning i (e :: log) = whileRunning i log := by
  have h1 : log.any (fun e => e.isCasOkOf i) = true := any_isCasOkOf_iff.2 hlin
  simp [whileRunning, h1, he, List.dropWhile]

theorem whileRunning_cons_running {log : List Event} {i : Nat} {e : Event}
    (hlin : i ∉ linearized log) (he : e ≠ Event.invoked i) :
    whileRunning i (e :: log) = e :: whileRunning i log := by
  have h1 : log.any (fun e => e.isCasOkOf i) = false := by
    cases h : log.any (fun e => e.isCasOkOf i) with
    | false => rfl
    | true => exact absurd (any_isCasOkOf_iff.1 h) hlin
  cases hp : e.isCasOkOf i <;>
    simp [whileRunning, h1, hp, List.dropWhile, List.takeWhile, he]

theorem othersSucceeded_cons_returned {log : List Event} {i : Nat} {e : Event}
    (hlin : i ∈ linearized log) (he : e.isCasOkOf i = false) :
    othersSucceeded i (e :: log) = othersSucceeded i log := by
  simp [othersSucceeded, whileRunning_cons_returned hlin he]

theorem othersSucceeded_cons_running {log : List Event} {i : Nat} {e : Event}
    (hlin : i ∉ linearized log) (he : e ≠ Event.invoked i) :
    othersSucceeded i (e :: log) =
      othersSucceeded i log + (if e.isCasOkOfOther i = true then 1 else 0) := by
  simp [othersSucceeded, whileRunning_cons_running hlin he, List.countP_cons]

theorem failures_cons (i : Nat) (e : Event) (log : List Event) :
    failures i (e :: log) = failures i log + (if e.isCasFailOf i = true then 1 else 0) := by
  simp [failures, List.countP_cons]

theorem failures_eq_zero {log : List Event} {i n : Nat} (h : ∀ e ∈ log, e.call < n)
    (hi : n ≤ i) : failures i log = 0 := by
  unfold failures
  rw [List.countP_eq_zero]
  intro e he hf
  have := h e he
  cases e <;> simp [Event.isCasFailOf, Event.call] at hf this
  omega

theorem isCasFailOf_call {e : Event} {i : Nat} (h : e.isCasFailOf i = true) : e.call = i := by
  cases e <;> simp [Event.isCasFailOf, Event.call] at h ⊢
  exact h

theorem isCasOkOf_call {e : Event} {i : Nat} (h : e.isCasOkOf i = true) : e.call = i := by
  cases e <;> simp [Event.isCasOkOf, Event.call] at h ⊢
  exact h

theorem isCasOkOfOther_iff {e : Event} {i : Nat} :
    e.isCasOkOfOther i = true ↔ e.isCasOk = true ∧ e.call ≠ i := by
  cases e <;> simp [Event.isCasOkOfOther, Event.isCasOk, Event.call]

theorem CountInv.count_initial {T : Type} (m0 : LockFreeStackPush T) :
    CountInv ({ stack := m0, calls := [] } : State T) [] := by
  intro i
  simp [failures, pendingOthers, othersSucceeded]

/-- A failed CAS of call `i` has seen a successful CAS of another call since its snapshot. -/
theorem SnapInv.stale_of_ne {T : Type} {m0 : LockFreeStackPush T} {l0 : List (Addr × T)}
    {s : State T} {log : List Event} (inv : Inv m0 l0 s log) (sn : SnapInv m0 s log)
    {i : Nat} {c : Call T} {n : Node T} (hc : s.calls[i]? = some c) (hpc : c.pc = PC.line81)
    (hn : deref s.stack.heap c.newNode = some n) (hh : s.stack.head ≠ n.next) :
    ∃ e ∈ sinceSnapshot i log, e.isCasOkOfOther i = true := by
  obtain ⟨nx, hd, hiff, _, _⟩ := sn i c hc hpc
  rw [hd] at hn
  injection hn with hn
  subst hn
  have hnot : ¬ ∀ e ∈ sinceSnapshot i log, e.isCasOk = false :=
    fun hall => hh (hiff.2 hall).symm
  simp only [not_forall] at hnot
  obtain ⟨e, he, hok⟩ := hnot
  have hok2 : e.isCasOk = true := by simpa using hok
  refine ⟨e, he, isCasOkOfOther_iff.2 ⟨hok2, ?_⟩⟩
  intro hcall
  have hlin := mem_linearized_of_casOk (sinceSnapshot_subset i log e he) hok2
  rw [hcall] at hlin
  have := (inv.returned i c hc).2 hlin
  rw [hpc] at this
  cases this

theorem pendingOthers_of_pc {T : Type} {s : State T} {log : List Event} {i : Nat} {c : Call T}
    (hc : s.calls[i]? = some c) (hpc : c.pc ≠ PC.line81) : pendingOthers s log i = 0 := by
  simp [pendingOthers, hc, hpc]

theorem pendingOthers_line81 {T : Type} {s : State T} {log : List Event} {i : Nat} {c : Call T}
    (hc : s.calls[i]? = some c) (hpc : c.pc = PC.line81) :
    pendingOthers s log i = (sinceSnapshot i log).countP (fun e => e.isCasOkOfOther i) := by
  simp [pendingOthers, hc, hpc]

/-- The step of another call: the call `i` and its counters move together. -/
theorem CountInv.step_other {T : Type} {m0 : LockFreeStackPush T} {l0 : List (Addr × T)}
    {s s' : State T} {log : List Event} {a : Action T} {e : Event} (inv : Inv m0 l0 s log)
    (cnt : CountInv s log) (h : LockFree.step s a = some (s', e)) (i : Nat)
    (hi : i ≠ e.call) :
    failures i (e :: log) + pendingOthers s' (e :: log) i ≤ othersSucceeded i (e :: log) := by
  have hfail : failures i (e :: log) = failures i log := by
    rw [failures_cons]
    cases hf : e.isCasFailOf i with
    | false => simp
    | true => exact absurd (isCasFailOf_call hf).symm hi
  have hnotok : e.isCasOkOf i = false := by
    cases hf : e.isCasOkOf i with
    | false => rfl
    | true => exact absurd (isCasOkOf_call hf).symm hi
  have hninv : e ≠ Event.invoked i := by
    intro he
    rw [he] at hi
    exact hi rfl
  have hIH := cnt i
  rw [hfail]
  by_cases hlin : i ∈ linearized log
  · rw [othersSucceeded_cons_returned hlin hnotok]
    have hp : pendingOthers s' (e :: log) i = 0 := by
      cases hci : s'.calls[i]? with
      | none => simp [pendingOthers, hci]
      | some ci =>
        have hci0 := (inv.step_frame h i ci hci hi).1
        have hret := (inv.returned i ci hci0).2 hlin
        exact pendingOthers_of_pc hci (by rw [hret]; decide)
    omega
  · rw [othersSucceeded_cons_running hlin hninv]
    have hp : pendingOthers s' (e :: log) i ≤
        pendingOthers s log i + (if e.isCasOkOfOther i = true then 1 else 0) := by
      cases hci : s'.calls[i]? with
      | none => simp [pendingOthers, hci]
      | some ci =>
        have hci0 := (inv.step_frame h i ci hci hi).1
        by_cases hpc : ci.pc = PC.line81
        · rw [pendingOthers_line81 hci hpc, pendingOthers_line81 hci0 hpc,
            sinceSnapshot_cons_of_ne log hi, List.countP_cons]
        · rw [pendingOthers_of_pc hci hpc]
          exact Nat.zero_le _
    omega

theorem Inv.not_linearized {T : Type} {m0 : LockFreeStackPush T} {l0 : List (Addr × T)}
    {s : State T} {log : List Event} (inv : Inv m0 l0 s log) {i : Nat} {c : Call T}
    (hc : s.calls[i]? = some c) (hpc : c.pc ≠ PC.returned) : i ∉ linearized log :=
  fun h => hpc ((inv.returned i c hc).2 h)

/-- The step of call `i` itself. -/
theorem CountInv.step_self {T : Type} {m0 : LockFreeStackPush T} {l0 : List (Addr × T)}
    {s s' : State T} {log : List Event} {a : Action T} {e : Event} (inv : Inv m0 l0 s log)
    (sn : SnapInv m0 s log) (cnt : CountInv s log) (h : LockFree.step s a = some (s', e)) :
    failures e.call (e :: log) + pendingOthers s' (e :: log) e.call
      ≤ othersSucceeded e.call (e :: log) := by
  cases step_cases h with
  | invoke v =>
    simp only [Event.call]
    rw [failures_cons, failures_eq_zero inv.ids (Nat.le_refl _)]
    have hc' : (s.calls ++ [({ val := v, pc := PC.line79, newNode := nullptr } : Call T)])[
        s.calls.length]? = some { val := v, pc := PC.line79, newNode := nullptr } := by
      rw [List.getElem?_append_right (Nat.le_refl _)]
      simp
    rw [pendingOthers_of_pc hc' (by simp)]
    simp [Event.isCasFailOf]
  | allocFail i c hc hpc =>
    simp only [Event.call]
    have hlin := inv.not_linearized hc (by rw [hpc]; decide)
    rw [failures_cons, othersSucceeded_cons_running hlin (by simp),
      pendingOthers_of_pc (getElem?_set_self_eq hc) (by simp)]
    have := cnt i
    simp only [Event.isCasFailOf, Event.isCasOkOfOther]
    simp
    omega
  | alloc i c a0 hc hpc ha =>
    simp only [Event.call]
    have hlin := inv.not_linearized hc (by rw [hpc]; decide)
    rw [failures_cons, othersSucceeded_cons_running hlin (by simp),
      pendingOthers_of_pc (getElem?_set_self_eq hc) (by simp)]
    have := cnt i
    simp only [Event.isCasFailOf, Event.isCasOkOfOther]
    simp
    omega
  | load i c hc hpc =>
    simp only [Event.call]
    have hlin := inv.not_linearized hc (by rw [hpc]; decide)
    rw [failures_cons, othersSucceeded_cons_running hlin (by simp),
      pendingOthers_line81 (getElem?_set_self_eq hc) rfl,
      sinceSnapshot_cons_self _ (by simp [Event.isSnapshotOf])]
    have := cnt i
    simp only [Event.isCasFailOf, Event.isCasOkOfOther]
    simp
    omega
  | casOk i c n hc hpc hn hh =>
    simp only [Event.call]
    have hlin := inv.not_linearized hc (by rw [hpc]; decide)
    rw [failures_cons, othersSucceeded_cons_running hlin (by simp),
      pendingOthers_of_pc (getElem?_set_self_eq hc) (by simp)]
    have := cnt i
    simp only [Event.isCasFailOf, Event.isCasOkOfOther]
    simp
    omega
  | casFail i c n hc hpc hn hh =>
    simp only [Event.call]
    have hlin := inv.not_linearized hc (by rw [hpc]; decide)
    rw [failures_cons, othersSucceeded_cons_running hlin (by simp),
      pendingOthers_line81 (getElem?_set_self_eq hc) hpc,
      sinceSnapshot_cons_self _ (by simp [Event.isSnapshotOf])]
    have hIH := cnt i
    rw [pendingOthers_line81 hc hpc] at hIH
    obtain ⟨e0, he0, hok0⟩ := sn.stale_of_ne inv hc hpc hn hh
    have hpos : 0 < (sinceSnapshot i log).countP (fun e => e.isCasOkOfOther i) :=
      List.countP_pos_iff.2 ⟨e0, he0, hok0⟩
    simp only [Event.isCasFailOf, Event.isCasOkOfOther]
    simp
    omega

/-- Every step preserves the counting invariant. -/
theorem CountInv.count_step {T : Type} {m0 : LockFreeStackPush T} {l0 : List (Addr × T)}
    {s s' : State T} {log : List Event} {a : Action T} {e : Event} (inv : Inv m0 l0 s log)
    (sn : SnapInv m0 s log) (cnt : CountInv s log) (h : LockFree.step s a = some (s', e)) :
    CountInv s' (e :: log) := by
  intro i
  by_cases hi : i = e.call
  · rw [hi]
    exact cnt.step_self inv sn h
  · exact cnt.step_other inv h i hi

theorem CountInv.count_runFrom {T : Type} {m0 : LockFreeStackPush T} {l0 : List (Addr × T)}
    (acts : List (Action T)) :
    ∀ {s s' : State T} {log log' : List Event}, Inv m0 l0 s log → SnapInv m0 s log →
      CountInv s log → LockFree.runFrom (s, log) acts = some (s', log') →
      CountInv s' log' := by
  induction acts with
  | nil =>
    intro s s' log log' _ _ cnt h
    simp only [LockFree.runFrom, Option.some.injEq, Prod.mk.injEq] at h
    obtain ⟨rfl, rfl⟩ := h
    exact cnt
  | cons a rest ih =>
    intro s s' log log' inv sn cnt h
    simp only [LockFree.runFrom] at h
    cases hs : LockFree.step s a with
    | none => simp [hs] at h
    | some r =>
      obtain ⟨s1, e⟩ := r
      simp only [hs] at h
      exact ih (inv.step hs) (sn.snap_step inv hs) (cnt.count_step inv sn hs) h

/-- The counting invariant holds in every state an execution reaches. -/
theorem CountInv.count_run {T : Type} {m0 : LockFreeStackPush T} {l0 : List (Addr × T)}
    {acts : List (Action T)} {s : State T} {log : List Event}
    (h0 : LockFree.chain m0 = some l0) (h : LockFree.run m0 acts = some (s, log)) :
    CountInv s log :=
  CountInv.count_runFrom acts (Inv.initial ((chain_eq_some_iff _ _).1 h0))
    (SnapInv.snap_initial m0) (CountInv.count_initial m0) h

/-! ## The order of the chain -/

theorem installed_append (l1 l2 : List Event) :
    installed (l1 ++ l2) = installed l1 ++ installed l2 := by
  induction l1 with
  | nil => rfl
  | cons e l1 ih => cases e <;> simp [installed, ih]

theorem mem_installed_of_casOk {log : List Event} {i : Nat} {old node : Addr}
    (h : Event.casOk i old node ∈ log) : node ∈ installed log := by
  obtain ⟨l1, l2, rfl⟩ := List.append_of_mem h
  rw [installed_append]
  exact List.mem_append_right _ (List.mem_cons_self _ _)

theorem Inv.chain_addrs {T : Type} {m0 : LockFreeStackPush T} {l0 : List (Addr × T)}
    {s : State T} {log : List Event} (inv : Inv m0 l0 s log) :
    (linked s.calls log ++ l0).map Prod.fst = LockFree.installed log ++ l0.map Prod.fst := by
  rw [List.map_append, inv.installed]

/-- The chain that starts at an installed node contains every node installed before it. -/
theorem Inv.chain_from_installed {T : Type} {m0 : LockFreeStackPush T} {l0 : List (Addr × T)}
    {s : State T} {log : List Event} (inv : Inv m0 l0 s log) {A B : List Addr} {b : Addr}
    (h : LockFree.installed log = A ++ b :: B) :
    ∃ v t, walk s.stack.heap s.stack.heap.length b = some ((b, v) :: t) ∧
      ∀ a ∈ B, a ∈ t.map Prod.fst := by
  have hmap := inv.chain_addrs
  rw [h, List.append_assoc] at hmap
  obtain ⟨lA, lR, hl, _, hR⟩ := List.map_eq_append_iff.1 hmap
  rw [List.cons_append] at hR
  obtain ⟨x, lB, hlR, hx, hB⟩ := List.map_eq_cons_iff.1 hR
  obtain ⟨b', v⟩ := x
  simp only at hx
  subst hx
  have hch := inv.chain
  rw [hl, hlR] at hch
  have hsuf : IsChain s.stack.heap b' ((b', v) :: lB) := hch.suffix
  refine ⟨v, lB, hsuf.walk _ hsuf.length_le, ?_⟩
  intro a ha
  rw [hB]
  exact List.mem_append_left _ ha

/-! ## What a step does to the free store -/

/-- A step changes the free store at most at a new address or at the node of a call that has
not returned. -/
theorem step_heap_cases {T : Type} {s s' : State T} {a : Action T} {e : Event}
    (h : step s a = some (s', e)) (b : Addr) :
    deref s'.stack.heap b = deref s.stack.heap b ∨ b ∉ addrs s.stack.heap ∨
      ∃ (i : Nat) (c : Call T),
        s.calls[i]? = some c ∧ c.pc ≠ PC.returned ∧ c.hasNode = true ∧ c.newNode = b := by
  cases step_cases h with
  | invoke v => exact Or.inl rfl
  | allocFail i c hc hpc => exact Or.inl rfl
  | alloc i c a0 hc hpc ha =>
    by_cases hb : b = a0
    · exact Or.inr (Or.inl (hb ▸ ha.2))
    · exact Or.inl (deref_cons_ne _ _ _ _ hb)
  | load i c hc hpc =>
    by_cases hb : b = c.newNode
    · exact Or.inr (Or.inr
        ⟨i, c, hc, by rw [hpc]; decide, by simp [Call.hasNode, hpc], hb.symm⟩)
    · exact Or.inl (deref_storeNext_ne _ _ _ _ hb)
  | casOk i c n hc hpc hn hh => exact Or.inl rfl
  | casFail i c n hc hpc hn hh =>
    by_cases hb : b = c.newNode
    · exact Or.inr (Or.inr
        ⟨i, c, hc, by rw [hpc]; decide, by simp [Call.hasNode, hpc], hb.symm⟩)
    · exact Or.inl (deref_storeNext_ne _ _ _ _ hb)

theorem deref_storeNext_data {T : Type} (h : Heap T) (p x b : Addr) (n : Node T)
    (hd : deref h b = some n) :
    ∃ n', deref (storeNext h p x) b = some n' ∧ n'.data = n.data := by
  by_cases hb : b = p
  · subst hb
    rw [deref_storeNext_self, hd]
    exact ⟨_, rfl, rfl⟩
  · rw [deref_storeNext_ne _ _ _ _ hb]
    exact ⟨n, hd, rfl⟩

/-- No step deallocates a node or changes a payload. -/
theorem step_keeps_data {T : Type} {s s' : State T} {a : Action T} {e : Event}
    (h : step s a = some (s', e)) (b : Addr) (n : Node T)
    (hd : deref s.stack.heap b = some n) :
    ∃ n', deref s'.stack.heap b = some n' ∧ n'.data = n.data := by
  cases step_cases h with
  | invoke v => exact ⟨n, hd, rfl⟩
  | allocFail i c hc hpc => exact ⟨n, hd, rfl⟩
  | alloc i c a0 hc hpc ha =>
    have hb : b ≠ a0 := fun e => ha.2 (e ▸ mem_addrs_of_deref hd)
    exact ⟨n, by rw [← hd]; exact deref_cons_ne _ _ _ _ hb, rfl⟩
  | load i c hc hpc => exact deref_storeNext_data _ _ _ _ _ hd
  | casOk i c n0 hc hpc hn hh => exact ⟨n, hd, rfl⟩
  | casFail i c n0 hc hpc hn hh => exact deref_storeNext_data _ _ _ _ _ hd

theorem IsChain.deref_mem {T : Type} {h : Heap T} {a : Addr} {l : List (Addr × T)}
    (hc : IsChain h a l) : ∀ x ∈ l, ∃ nx, deref h x.1 = some { data := x.2, next := nx } := by
  induction l generalizing a with
  | nil => intro x hx; cases hx
  | cons y l ih =>
    obtain ⟨b, v⟩ := y
    obtain ⟨hab, _, nx, hd, hrest⟩ := hc
    intro x hx
    rcases List.mem_cons.1 hx with rfl | hx
    · exact ⟨nx, hab ▸ hd⟩
    · exact ih hrest x hx

/-- A step leaves every node on the chain from `head` as it is. -/
theorem Inv.step_keeps_chain {T : Type} {m0 : LockFreeStackPush T} {l0 : List (Addr × T)}
    {s s' : State T} {log : List Event} {a : Action T} {e : Event} (inv : Inv m0 l0 s log)
    (h : LockFree.step s a = some (s', e)) :
    ∀ x ∈ linked s.calls log ++ l0, deref s'.stack.heap x.1 = deref s.stack.heap x.1 := by
  intro x hx
  rcases step_heap_cases h x.1 with h1 | h1 | ⟨i, c, hc, hpc, hn, hb⟩
  · exact h1
  · exact absurd (inv.chain.mem_addrs x hx) h1
  · exact absurd hb.symm (inv.not_linked hc hn hpc x hx)

/-! ## The claims -/

/-- C1 (sequential push postcondition): if the payloads read from `head` are `s` and `new`
returns a fresh address `a`, then `push(v)` run without interference returns, without a failed
attempt, in a state whose payloads read from `head` are `v :: s`; the chain has exactly one node
more, namely the new node at `a`, which carries `v`, is `head`, and is followed by the old
chain. -/
theorem push_sequential_postcondition {T : Type} (m : LockFreeStackPush T) (s : List T) (v : T)
    (a : Addr) (fuel : Nat) (hs : payloads m = some s) (ha : fresh m a) :
    ∃ m' l, push m v (some a) (fuel + 1) = some (PushResult.returned m' 0) ∧
      chain m = some l ∧
      payloads m' = some (v :: s) ∧
      chain m' = some ((a, v) :: l) ∧
      (chain m').map List.length = some (l.length + 1) ∧
      m'.head = a ∧
      deref m'.heap a = some { data := v, next := m.head } := by
  obtain ⟨l, hl, hls⟩ := payloads_eq_some hs
  have hc := chain_push v hl ha
  refine ⟨_, l, push_eq m v a fuel, hl, ?_, hc, ?_, rfl, ?_⟩
  · simp [payloads, hc, hls]
  · simp [hc]
  · simp [deref]

/-- Witness for C1: pushing 20 with new node 2 onto the stack holding 10 in node 1. -/
theorem push_sequential_postcondition_witness :
    payloads ({ head := 1, heap := [(1, { data := 10, next := 0 })] } : LockFreeStackPush Nat)
        = some [10] ∧
      fresh ({ head := 1, heap := [(1, { data := 10, next := 0 })] } : LockFreeStackPush Nat) 2 ∧
      ∃ m' l, push ({ head := 1, heap := [(1, { data := 10, next := 0 })] } :
          LockFreeStackPush Nat) 20 (some 2) (0 + 1) = some (PushResult.returned m' 0) ∧
        chain ({ head := 1, heap := [(1, { data := 10, next := 0 })] } : LockFreeStackPush Nat)
          = some l ∧
        payloads m' = some (20 :: [10]) ∧
        chain m' = some ((2, 20) :: l) ∧
        (chain m').map List.length = some (l.length + 1) ∧
        m'.head = 2 ∧
        deref m'.heap 2 = some { data := 20, next := 1 } :=
  ⟨by decide, by decide,
    push_sequential_postcondition { head := 1, heap := [(1, { data := 10, next := 0 })] } [10] 20
      2 0 (by decide) (by decide)⟩

/-- C2 (LIFO order): when one thread pushes the values of `ps` one after another (each with
the fresh address `new` returns for it) onto a stack whose payloads read from `head` are `s`,
every call returns and the payloads read from `head` afterwards are the pushed values in
reverse order followed by `s`; so the top is the value pushed last. -/
theorem push_lifo_order {T : Type} (m : LockFreeStackPush T) (s : List T)
    (ps : List (T × Addr)) (fuel : Nat) (hs : payloads m = some s)
    (hnd : (ps.map Prod.snd).Nodup) (hfresh : ∀ p ∈ ps, fresh m p.2) :
    ∃ m', pushAll (fuel + 1) m ps = some m' ∧
      payloads m' = some ((ps.map Prod.fst).reverse ++ s) ∧
      (ps ≠ [] → (payloads m').bind List.head? = (ps.map Prod.fst).getLast?) := by
  obtain ⟨l, hl, hls⟩ := payloads_eq_some hs
  obtain ⟨m', hm', hc⟩ := pushAll_spec fuel ps m l hl hnd hfresh
  have hp : payloads m' = some ((ps.map Prod.fst).reverse ++ s) := by
    simp [payloads, hc, hls, List.map_reverse]
  refine ⟨m', hm', hp, ?_⟩
  intro hne
  rw [hp]
  have hne2 : (ps.map Prod.fst).reverse ≠ [] := by simpa using hne
  simp only [Option.some_bind]
  rw [List.head?_append_of_ne_nil _ hne2, List.head?_reverse]

/-- Witness for C2: push(1), push(2), push(3) on an empty stack leaves the chain 3, 2, 1. -/
theorem push_lifo_order_witness :
    payloads ({ head := 0, heap := [] } : LockFreeStackPush Nat) = some [] ∧
      ∃ m', pushAll (0 + 1) ({ head := 0, heap := [] } : LockFreeStackPush Nat)
          [(1, 10), (2, 20), (3, 30)] = some m' ∧
        payloads m' = some (([(1, 10), (2, 20), (3, 30)].map Prod.fst).reverse ++ []) ∧
        (([(1, 10), (2, 20), (3, 30)] : List (Nat × Addr)) ≠ [] →
          (payloads m').bind List.head? = ([(1, 10), (2, 20), (3, 30)].map Prod.fst).getLast?) :=
  ⟨by decide,
    push_lifo_order { head := 0, heap := [] } [] [(1, 10), (2, 20), (3, 30)] 0 (by decide)
      (by decide) (by decide)⟩

/-- C8 (allocation-failure atomicity): when `new` fails at line 79, `push` ends by passing the
failure to its caller and the stack (head and every node) is exactly what it was before the
call; in an interleaving, the failing step of a call at line 79 is possible, changes neither
`head` nor the heap nor any other call, and ends the call. -/
theorem push_alloc_failure_atomic {T : Type} :
    (∀ (m : LockFreeStackPush T) (v : T) (fuel : Nat),
      push m v none fuel = some (PushResult.bad_alloc m)) ∧
    (∀ (s : State T) (i : Nat) (c : Call T), s.calls[i]? = some c → c.pc = PC.line79 →
      step s (Action.alloc i none) =
        some ({ stack := s.stack, calls := s.calls.set i { c with pc := PC.threw } },
          Event.allocFailed i)) := by
  refine ⟨fun m v fuel => rfl, ?_⟩
  intro s i c hc hpc
  simp [step, hc, hpc]

/-- Witness for C8: the allocation of the only call fails. -/
theorem push_alloc_failure_atomic_witness :
    step ({ stack := { head := 0, heap := [] },
            calls := [{ val := 7, pc := PC.line79, newNode := 0 }] } : State Nat)
        (Action.alloc 0 none) =
      some ({ stack := { head := 0, heap := [] },
              calls := [{ val := 7, pc := PC.threw, newNode := 0 }] }, Event.allocFailed 0) :=
  push_alloc_failure_atomic.2 _ 0 { val := 7, pc := PC.line79, newNode := 0 } rfl rfl

/-- C3 (no loss, no duplication): an execution starts from a stack whose chain is `l0`, with
any interleaving of the steps of any number of `push` calls.  Once all calls have returned, the
chain from `head` consists exactly of the nodes of these calls and the nodes of `l0`, each
once: its addresses are pairwise distinct and it is a permutation of the calls' nodes followed
by `l0`.  So the linked payloads are, as a multiset, the pushed values plus the initial
payloads, and they are pairwise distinct when the pushed values are and the stack was empty. -/
theorem push_no_loss_no_duplication {T : Type} (m0 : LockFreeStackPush T)
    (l0 : List (Addr × T)) (acts : List (Action T)) (s : State T) (log : List Event)
    (h0 : chain m0 = some l0) (hrun : run m0 acts = some (s, log))
    (hall : ∀ c ∈ s.calls, c.pc = PC.returned) :
    ∃ l, chain s.stack = some l ∧
      (l.map Prod.fst).Nodup ∧
      l.Perm (s.calls.map (fun c => (c.newNode, c.val)) ++ l0) ∧
      payloads s.stack = some (l.map Prod.snd) ∧
      (l.map Prod.snd).Perm (s.calls.map Call.val ++ l0.map Prod.snd) ∧
      ((s.calls.map Call.val).Nodup → l0 = [] →
        (l.map Prod.snd).Nodup ∧ (l.map Prod.snd).Perm (s.calls.map Call.val)) := by
  have inv := Inv.run h0 hrun
  have hperm : (linked s.calls log ++ l0).Perm
      (s.calls.map (fun c => (c.newNode, c.val)) ++ l0) :=
    (inv.linked_perm hall).append_right l0
  have hpay : ((linked s.calls log ++ l0).map Prod.snd).Perm
      (s.calls.map Call.val ++ l0.map Prod.snd) := by
    have := hperm.map Prod.snd
    simpa [List.map_append, Function.comp_def] using this
  refine ⟨_, inv.chain_eq, inv.chain.nodup, hperm, ?_, hpay, ?_⟩
  · simp [payloads, inv.chain_eq]
  · intro hnd hl0
    subst hl0
    have h2 : ((linked s.calls log ++ []).map Prod.snd).Perm (s.calls.map Call.val) := by
      simpa using hpay
    exact ⟨h2.nodup_iff.2 hnd, h2⟩

/-- Witness for C3: the two racing pushes of `demoSchedule`. -/
theorem push_no_loss_no_duplication_witness :
    chain demoStack = some [(1, 10)] ∧ run demoStack demoSchedule = some (demoState, demoLog) ∧
      (∀ c ∈ demoState.calls, c.pc = PC.returned) ∧
      ∃ l, chain demoState.stack = some l ∧
        (l.map Prod.fst).Nodup ∧
        l.Perm (demoState.calls.map (fun c => (c.newNode, c.val)) ++ [(1, 10)]) ∧
        payloads demoState.stack = some (l.map Prod.snd) ∧
        (l.map Prod.snd).Perm (demoState.calls.map Call.val ++ [(1, 10)].map Prod.snd) ∧
        ((demoState.calls.map Call.val).Nodup → [((1 : Addr), 10)] = [] →
          (l.map Prod.snd).Nodup ∧ (l.map Prod.snd).Perm (demoState.calls.map Call.val)) :=
  ⟨by decide, by decide, by decide,
    push_no_loss_no_duplication demoStack [(1, 10)] demoSchedule demoState demoLog (by decide)
      (by decide) (by decide)⟩

/-- C4 (acyclicity invariant): from a well-formed stack (the chain from `head` is a finite
null-terminated list), every state reached by any interleaving of `push` steps, in which each
allocation returns an address different from all allocated nodes, is well-formed again: the
chain from `head` is a finite list of allocated non-null nodes that ends in `nullptr` and
visits no node twice. -/
theorem push_preserves_acyclic {T : Type} (m0 : LockFreeStackPush T)
    (acts : List (Action T)) (s : State T) (log : List Event)
    (hwf : WellFormed m0) (hrun : run m0 acts = some (s, log)) :
    WellFormed s.stack ∧
      ∃ l, chain s.stack = some l ∧ IsChain s.stack.heap s.stack.head l ∧
        (l.map Prod.fst).Nodup ∧ ∀ x ∈ l, x.1 ≠ nullptr ∧ x.1 ∈ addrs s.stack.heap := by
  obtain ⟨l0, h0⟩ := Option.isSome_iff_exists.1 hwf
  have inv := Inv.run h0 hrun
  refine ⟨?_, _, inv.chain_eq, inv.chain, inv.chain.nodup, ?_⟩
  · simp [WellFormed, inv.chain_eq]
  · exact fun x hx => ⟨inv.chain.ne_null x hx, inv.chain.mem_addrs x hx⟩

/-- Witness for C4: the state reached by `demoSchedule`. -/
theorem push_preserves_acyclic_witness :
    WellFormed demoStack ∧ run demoStack demoSchedule = some (demoState, demoLog) ∧
      WellFormed demoState.stack ∧
      ∃ l, chain demoState.stack = some l ∧
        IsChain demoState.stack.heap demoState.stack.head l ∧
        (l.map Prod.fst).Nodup ∧
        ∀ x ∈ l, x.1 ≠ nullptr ∧ x.1 ∈ addrs demoState.stack.heap :=
  ⟨by decide, by decide,
    push_preserves_acyclic demoStack demoSchedule demoState demoLog (by decide) (by decide)⟩

/-- C5 (reachability coincides with the linearization point): in every state of an execution,
the node allocated by a call is on the chain from `head` exactly when the CAS of the call has
succeeded, which is exactly when the call has returned; so after line 79, after line 80 and
after a failed CAS the node is not on the chain.  A CAS attempt of the call finds the node off
the chain; when it succeeds the node is the first node of the chain right after this step,
and when it fails the chain is unchanged. -/
theorem node_reachable_iff_cas_succeeded {T : Type} (m0 : LockFreeStackPush T)
    (l0 : List (Addr × T)) (acts : List (Action T)) (s : State T) (log : List Event)
    (h0 : chain m0 = some l0) (hrun : run m0 acts = some (s, log))
    (i : Nat) (c : Call T) (hc : s.calls[i]? = some c) (hn : c.hasNode = true) :
    ∃ l, chain s.stack = some l ∧
      (c.newNode ∈ l.map Prod.fst ↔ i ∈ linearized log) ∧
      (i ∈ linearized log ↔ c.pc = PC.returned) ∧
      (∀ s' e, step s (Action.cas i) = some (s', e) →
        c.newNode ∉ l.map Prod.fst ∧
        (e.isCasOk = true →
          chain s'.stack = some ((c.newNode, c.val) :: l) ∧ s'.stack.head = c.newNode) ∧
        (e.isCasOk = false → chain s'.stack = some l)) := by
  have inv := Inv.run h0 hrun
  have hnot : c.pc ≠ PC.returned → c.newNode ∉ (linked s.calls log ++ l0).map Prod.fst := by
    intro hpc hmem
    obtain ⟨x, hx, hxe⟩ := List.mem_map.1 hmem
    exact inv.not_linked hc hn hpc x hx hxe
  refine ⟨_, inv.chain_eq, ?_, (inv.returned i c hc).symm, ?_⟩
  · constructor
    · intro hmem
      by_contra hlin
      exact hnot (fun hpc => hlin ((inv.returned i c hc).1 hpc)) hmem
    · intro hlin
      have : (c.newNode, c.val) ∈ linked s.calls log := mem_linked.2 ⟨i, hlin, c, hc, rfl⟩
      exact List.mem_map.2 ⟨_, List.mem_append_left _ this, rfl⟩
  · intro s' e hstep
    obtain ⟨cj, n, hcj, hpc, hd, hcase⟩ := step_cas hstep
    rw [hc] at hcj
    injection hcj with hcj
    subst hcj
    have hnl := hnot (by rw [hpc]; decide)
    rcases hcase with ⟨hh, rfl, rfl⟩ | ⟨hh, rfl, rfl⟩
    · refine ⟨hnl, fun _ => ⟨?_, rfl⟩, fun h => by simp [Event.isCasOk] at h⟩
      rw [chain_eq_some_iff]
      obtain ⟨hnz, _, nx, hd2⟩ := inv.node i c hc hn
      refine ⟨rfl, hnz, nx, hd2, ?_⟩
      rw [hd2] at hd
      injection hd with hd
      subst hd
      have hch := inv.chain
      rw [hh] at hch
      exact hch
    · refine ⟨hnl, fun h => by simp [Event.isCasOk] at h, fun _ => ?_⟩
      rw [chain_eq_some_iff]
      apply inv.chain.frame
      intro x hx
      apply deref_storeNext_ne
      intro e
      exact hnl (List.mem_map.2 ⟨x, hx, e⟩)

/-- Witness for C5: the first call of `demoRace`, whose node 2 is allocated but not linked. -/
theorem node_reachable_iff_cas_succeeded_witness :
    chain demoStack = some [(1, 10)] ∧
      run demoStack demoRace = some (demoRaceState, demoRaceLog) ∧
      ∃ l, chain demoRaceState.stack = some l ∧
        ((2 : Addr) ∈ l.map Prod.fst ↔ 0 ∈ linearized demoRaceLog) ∧
        (0 ∈ linearized demoRaceLog ↔ PC.line81 = PC.returned) ∧
        (∀ s' e, step demoRaceState (Action.cas 0) = some (s', e) →
          (2 : Addr) ∉ l.map Prod.fst ∧
          (e.isCasOk = true → chain s'.stack = some ((2, 7) :: l) ∧ s'.stack.head = 2) ∧
          (e.isCasOk = false → chain s'.stack = some l)) :=
  ⟨by decide, by decide,
    node_reachable_iff_cas_succeeded demoStack [(1, 10)] demoRace demoRaceState demoRaceLog
      (by decide) (by decide) 0 { val := 7, pc := PC.line81, newNode := 2 } (by decide)
      (by decide)⟩

/-- C6 (lock-free progress): in every state of an execution, (1) a CAS attempt of a call
fails only if the CAS of another call has succeeded after the call's latest snapshot of `head`
(its load at line 80 or its previous failed CAS); (2) of two calls at line 81 whose snapshots
both equal the current `head`, the one that tries first succeeds and the other one then fails;
(3) no two successful CASes replaced the same value of `head`; (4) the number of failed
attempts of a call is at most the number of successful CASes of other calls while the call was
running. -/
theorem push_lock_free_progress {T : Type} (m0 : LockFreeStackPush T)
    (l0 : List (Addr × T)) (acts : List (Action T)) (s : State T) (log : List Event)
    (h0 : chain m0 = some l0) (hrun : run m0 acts = some (s, log)) :
    (∀ i s' h, step s (Action.cas i) = some (s', Event.casFail i h) →
      ∃ e ∈ sinceSnapshot i log, e.isCasOkOfOther i = true) ∧
    (∀ (i j : Nat) (ci cj : Call T) (ni nj : Node T), i ≠ j →
      s.calls[i]? = some ci → s.calls[j]? = some cj →
      ci.pc = PC.line81 → cj.pc = PC.line81 →
      deref s.stack.heap ci.newNode = some ni → deref s.stack.heap cj.newNode = some nj →
      ni.next = s.stack.head → nj.next = s.stack.head →
      ∃ s1 s2, step s (Action.cas i) = some (s1, Event.casOk i s.stack.head ci.newNode) ∧
        step s1 (Action.cas j) = some (s2, Event.casFail j ci.newNode)) ∧
    (replaced log).Nodup ∧
    (∀ i, failures i log ≤ othersSucceeded i log) := by
  have inv := Inv.run h0 hrun
  have sn := SnapInv.snap_run h0 hrun
  have cnt := CountInv.count_run h0 hrun
  refine ⟨?_, ?_, ?_, ?_⟩
  · intro i s' h hstep
    obtain ⟨c, n, hc, hpc, hn, hcase⟩ := step_cas hstep
    rcases hcase with ⟨_, _, he⟩ | ⟨hh, _, _⟩
    · cases he
    · exact sn.stale_of_ne inv hc hpc hn hh
  · intro i j ci cj ni nj hij hci hcj hpi hpj hni hnj hhi hhj
    have hne : ci.newNode ≠ nj.next := by
      intro e
      have hmem := mem_headValues_of_head inv.head
      rw [← hhj, ← e] at hmem
      exact inv.newNode_not_head hci (by simp [Call.hasNode, hpi]) (by rw [hpi]; decide) hmem
    have hcj' : (s.calls.set i { ci with pc := PC.returned })[j]? = some cj := by
      rw [List.getElem?_set_ne hij]
      exact hcj
    exact ⟨_, _, step_cas_ok hci hpi hni hhi.symm, step_cas_fail hcj' hpj hnj hne⟩
  · rw [inv.replaced]
    exact inv.headValues_nodup.tail
  · intro i
    exact Nat.le_trans (Nat.le_add_right _ _) (cnt i)

/-- Witness for C6: the execution `demoSchedule`, in which the first call fails once. -/
theorem push_lock_free_progress_witness :
    chain demoStack = some [(1, 10)] ∧ run demoStack demoSchedule = some (demoState, demoLog) ∧
      ((∀ i s' h, step demoState (Action.cas i) = some (s', Event.casFail i h) →
        ∃ e ∈ sinceSnapshot i demoLog, e.isCasOkOfOther i = true) ∧
      (∀ (i j : Nat) (ci cj : Call Nat) (ni nj : Node Nat), i ≠ j →
        demoState.calls[i]? = some ci → demoState.calls[j]? = some cj →
        ci.pc = PC.line81 → cj.pc = PC.line81 →
        deref demoState.stack.heap ci.newNode = some ni →
        deref demoState.stack.heap cj.newNode = some nj →
        ni.next = demoState.stack.head → nj.next = demoState.stack.head →
        ∃ s1 s2, step demoState (Action.cas i)
            = some (s1, Event.casOk i demoState.stack.head ci.newNode) ∧
          step s1 (Action.cas j) = some (s2, Event.casFail j ci.newNode)) ∧
      (replaced demoLog).Nodup ∧
      (∀ i, failures i demoLog ≤ othersSucceeded i demoLog)) :=
  ⟨by decide, by decide,
    push_lock_free_progress demoStack [(1, 10)] demoSchedule demoState demoLog (by decide)
      (by decide)⟩

/-- C7 (termination of push): if the allocation succeeds, `push` run without interference
returns for every positive fuel, its first CAS attempt succeeds and it performs no retry; so
`push` is total on sequential states.  In an execution, a call at line 80 can take its
snapshot and then its CAS, and this CAS succeeds; more generally the CAS of a call at line 81
succeeds whenever no CAS has succeeded since the call's latest snapshot. -/
theorem push_terminates_without_interference {T : Type} (m0 : LockFreeStackPush T)
    (l0 : List (Addr × T)) (acts : List (Action T)) (s : State T) (log : List Event)
    (h0 : chain m0 = some l0) (hrun : run m0 acts = some (s, log)) :
    (∀ (m : LockFreeStackPush T) (v : T) (a : Addr) (fuel : Nat),
      ∃ m', casAttempt (snapshot (allocNode m a v) a) a = some (true, m') ∧
        push m v (some a) (fuel + 1) = some (PushResult.returned m' 0)) ∧
    (∀ (i : Nat) (c : Call T), s.calls[i]? = some c → c.pc = PC.line80 →
      ∃ s1 s2, step s (Action.load i) = some (s1, Event.loaded i s.stack.head) ∧
        step s1 (Action.cas i) = some (s2, Event.casOk i s.stack.head c.newNode)) ∧
    (∀ (i : Nat) (c : Call T), s.calls[i]? = some c → c.pc = PC.line81 →
      (∀ e ∈ sinceSnapshot i log, e.isCasOk = false) →
      ∃ s', step s (Action.cas i) = some (s', Event.casOk i s.stack.head c.newNode)) := by
  have inv := Inv.run h0 hrun
  have sn := SnapInv.snap_run h0 hrun
  refine ⟨?_, ?_, ?_⟩
  · intro m v a fuel
    exact ⟨_, casAttempt_after_snapshot m v a, push_eq m v a fuel⟩
  · intro i c hc hpc
    obtain ⟨_, _, nx, hd⟩ := inv.node i c hc (by simp [Call.hasNode, hpc])
    have hc1 : (s.calls.set i { c with pc := PC.line81 })[i]? =
        some { c with pc := PC.line81 } := getElem?_set_self_eq hc
    have hd1 : deref (snapshot s.stack c.newNode).heap c.newNode =
        some { data := c.val, next := s.stack.head } := by
      simp [snapshot, load, deref_storeNext_self, hd]
    have h2 := @step_cas_ok T
      { stack := snapshot s.stack c.newNode, calls := s.calls.set i { c with pc := PC.line81 } }
      i { c with pc := PC.line81 } _ hc1 rfl hd1 rfl
    exact ⟨_, _, step_load hc hpc, h2⟩
  · intro i c hc hpc hall
    obtain ⟨nx, hd, hiff, _, _⟩ := sn i c hc hpc
    exact ⟨_, step_cas_ok hc hpc hd (hiff.2 hall).symm⟩

/-- Witness for C7: the state reached by `demoRace` and its first call. -/
theorem push_terminates_without_interference_witness :
    chain demoStack = some [(1, 10)] ∧
      run demoStack demoRace = some (demoRaceState, demoRaceLog) ∧
      ((∀ (m : LockFreeStackPush Nat) (v : Nat) (a : Addr) (fuel : Nat),
        ∃ m', casAttempt (snapshot (allocNode m a v) a) a = some (true, m') ∧
          push m v (some a) (fuel + 1) = some (PushResult.returned m' 0)) ∧
      (∀ (i : Nat) (c : Call Nat), demoRaceState.calls[i]? = some c → c.pc = PC.line80 →
        ∃ s1 s2, step demoRaceState (Action.load i)
            = some (s1, Event.loaded i demoRaceState.stack.head) ∧
          step s1 (Action.cas i) = some (s2, Event.casOk i demoRaceState.stack.head c.newNode)) ∧
      (∀ (i : Nat) (c : Call Nat), demoRaceState.calls[i]? = some c → c.pc = PC.line81 →
        (∀ e ∈ sinceSnapshot i demoRaceLog, e.isCasOk = false) →
        ∃ s', step demoRaceState (Action.cas i)
          = some (s', Event.casOk i demoRaceState.stack.head c.newNode))) :=
  ⟨by decide, by decide,
    push_terminates_without_interference demoStack [(1, 10)] demoRace demoRaceState demoRaceLog
      (by decide) (by decide)⟩

/-- C9 (real-time order): in an execution whose history shows that call `i` returned (its
CAS installed `ni`) before call `j` was invoked, a successful CAS of call `j` comes after the
invocation of `j`, hence after the CAS of `i`; and in every state in which the CAS of `j` has
installed `nj`, following `next` from `nj` reaches `ni`, so `nj` is closer to `head`.  In
general the addresses on the chain from `head` are the installed nodes, latest success first,
followed by the initial chain. -/
theorem push_real_time_order {T : Type} (m0 : LockFreeStackPush T)
    (l0 : List (Addr × T)) (acts : List (Action T)) (s : State T) (log : List Event)
    (h0 : chain m0 = some l0) (hrun : run m0 acts = some (s, log))
    (i j : Nat) (oi ni : Addr) (l1 l2 l3 : List Event)
    (hlog : log = l3 ++ Event.invoked j :: (l2 ++ Event.casOk i oi ni :: l1)) :
    (∃ l, chain s.stack = some l ∧ l.map Prod.fst = installed log ++ l0.map Prod.fst) ∧
    (∀ oj nj, Event.casOk j oj nj ∈ log → Event.casOk j oj nj ∈ l3) ∧
    (∀ oj nj, Event.casOk j oj nj ∈ log →
      ∃ v t, walk s.stack.heap s.stack.heap.length nj = some ((nj, v) :: t) ∧
        ni ∈ t.map Prod.fst) := by
  have inv := Inv.run h0 hrun
  have hafter : ∀ oj nj, Event.casOk j oj nj ∈ log → Event.casOk j oj nj ∈ l3 := by
    intro oj nj hmem
    rw [hlog] at hmem
    rcases List.mem_append.1 hmem with h | h
    · exact h
    · rcases List.mem_cons.1 h with h | h
      · cases h
      · have := inv.order l3 _ j hlog _ h
        simp [Event.call] at this
  refine ⟨⟨_, inv.chain_eq, inv.chain_addrs⟩, hafter, ?_⟩
  intro oj nj hmem
  obtain ⟨a, b, hab⟩ := List.append_of_mem (hafter oj nj hmem)
  have hinst : installed log =
      installed a ++ nj :: (installed b ++ installed (Event.invoked j ::
        (l2 ++ Event.casOk i oi ni :: l1))) := by
    rw [hlog, hab, installed_append, installed_append]
    simp [installed]
  obtain ⟨v, t, hw, hsub⟩ := inv.chain_from_installed hinst
  refine ⟨v, t, hw, hsub ni ?_⟩
  apply List.mem_append_right
  have hin : Event.casOk i oi ni ∈ Event.invoked j :: (l2 ++ Event.casOk i oi ni :: l1) :=
    List.mem_cons_of_mem _ List.mem_append_cons_self
  exact mem_installed_of_casOk hin

/-- Witness for C9: in `demoSequence` the first call returns before the second is invoked. -/
theorem push_real_time_order_witness :
    chain demoStack = some [(1, 10)] ∧
      run demoStack demoSequence = some (demoSequenceState, demoSequenceLog) ∧
      demoSequenceLog = [Event.casOk 1 2 3, Event.loaded 1 2, Event.allocated 1 3] ++
        Event.invoked 1 :: ([] ++ Event.casOk 0 1 2 ::
          [Event.loaded 0 1, Event.allocated 0 2, Event.invoked 0]) ∧
      ((∃ l, chain demoSequenceState.stack = some l ∧
          l.map Prod.fst = installed demoSequenceLog ++ [((1 : Addr), 10)].map Prod.fst) ∧
      (∀ oj nj, Event.casOk 1 oj nj ∈ demoSequenceLog →
        Event.casOk 1 oj nj ∈ [Event.casOk 1 2 3, Event.loaded 1 2, Event.allocated 1 3]) ∧
      (∀ oj nj, Event.casOk 1 oj nj ∈ demoSequenceLog →
        ∃ v t, walk demoSequenceState.stack.heap demoSequenceState.stack.heap.length nj
            = some ((nj, v) :: t) ∧
          (2 : Addr) ∈ t.map Prod.fst)) :=
  ⟨by decide, by decide, rfl,
    push_real_time_order demoStack [(1, 10)] demoSequence demoSequenceState demoSequenceLog
      (by decide) (by decide) 0 1 1 2 [Event.loaded 0 1, Event.allocated 0 2, Event.invoked 0] []
      [Event.casOk 1 2 3, Event.loaded 1 2, Event.allocated 1 3] rfl⟩

/-- C10 (ABA resistance of push): in every state of an execution, the values `head` has taken
are pairwise different (no address is ever installed twice) and the latest of them is the
current value; only a successful CAS changes `head`; when the CAS of a call succeeds, no CAS
has succeeded since the latest snapshot of the call, and that snapshot recorded the value the
CAS replaced; and a CAS attempted after an intervening successful CAS fails. -/
theorem push_aba_resistant {T : Type} (m0 : LockFreeStackPush T)
    (l0 : List (Addr × T)) (acts : List (Action T)) (s : State T) (log : List Event)
    (h0 : chain m0 = some l0) (hrun : run m0 acts = some (s, log)) :
    (headValues m0.head log).Nodup ∧
    (headValues m0.head log).head? = some s.stack.head ∧
    (∀ a s' e, step s a = some (s', e) → e.isCasOk = false → s'.stack.head = s.stack.head) ∧
    (∀ i s' old node, step s (Action.cas i) = some (s', Event.casOk i old node) →
      old = s.stack.head ∧ s'.stack.head = node ∧
      (∀ e ∈ sinceSnapshot i log, e.isCasOk = false) ∧
      ∃ e earlier, log = sinceSnapshot i log ++ e :: earlier ∧
        (e = Event.loaded i old ∨ e = Event.casFail i old)) ∧
    (∀ i s' e, step s (Action.cas i) = some (s', e) →
      (∃ e' ∈ sinceSnapshot i log, e'.isCasOk = true) → e.isCasOk = false) := by
  have inv := Inv.run h0 hrun
  have sn := SnapInv.snap_run h0 hrun
  refine ⟨inv.headValues_nodup, inv.head, fun a s' e h he => step_head h he, ?_, ?_⟩
  · intro i s' old node hstep
    obtain ⟨c, n, hc, hpc, hn, hcase⟩ := step_cas hstep
    obtain ⟨nx, hd, hiff, _, e0, earlier, hsplit, he0⟩ := sn i c hc hpc
    rw [hd] at hn
    injection hn with hn
    subst hn
    rcases hcase with ⟨hh, hs', he⟩ | ⟨_, _, he⟩
    · injection he with _ hold hnode
      simp only at hh
      subst hold
      refine ⟨rfl, by rw [hs', hnode], hiff.1 hh.symm, e0, earlier, hsplit, ?_⟩
      rw [hh]
      exact he0
    · cases he
  · intro i s' e hstep hex
    obtain ⟨c, n, hc, hpc, hn, hcase⟩ := step_cas hstep
    obtain ⟨nx, hd, hiff, _, _⟩ := sn i c hc hpc
    rw [hd] at hn
    injection hn with hn
    subst hn
    rcases hcase with ⟨hh, _, _⟩ | ⟨_, _, he⟩
    · obtain ⟨e', he', hok⟩ := hex
      have := hiff.1 hh.symm e' he'
      rw [hok] at this
      cases this
    · rw [he]; rfl

/-- Witness for C10: the state reached by `demoRace` followed by the successful CAS of the
second call; the first call then holds a stale snapshot and its CAS fails. -/
theorem push_aba_resistant_witness :
    chain demoStack = some [(1, 10)] ∧
      run demoStack (demoRace ++ [Action.cas 1])
        = some (demoStaleState, Event.casOk 1 1 3 :: demoRaceLog) ∧
      step demoStaleState (Action.cas 0) = some (demoRefreshedState, Event.casFail 0 3) ∧
      (∃ e' ∈ sinceSnapshot 0 (Event.casOk 1 1 3 :: demoRaceLog), e'.isCasOk = true) ∧
      (Event.casFail 0 3).isCasOk = false :=
  ⟨by decide, by decide, by decide, ⟨Event.casOk 1 1 3, by decide, rfl⟩,
    (push_aba_resistant demoStack [(1, 10)] (demoRace ++ [Action.cas 1]) demoStaleState
      (Event.casOk 1 1 3 :: demoRaceLog) (by decide) (by decide)).2.2.2.2 0 demoRefreshedState
      (Event.casFail 0 3) (by decide) ⟨Event.casOk 1 1 3, by decide, rfl⟩⟩

/-- C11 (push never frees or mutates linked nodes): in every state of an execution and for
every step of every call, each node on the chain from `head` before the step is still
allocated after it, with the same payload and the same `next`; following `next` from the old
`head` in the new free store gives the old chain verbatim, and the chain from the new `head`
is the old chain with nothing in front (the step was not a successful CAS) or with exactly one
node in front (it was).  Every node allocated before the step is allocated after it and keeps
its payload: nothing is ever freed. -/
theorem push_never_frees_or_mutates_linked {T : Type} (m0 : LockFreeStackPush T)
    (l0 : List (Addr × T)) (acts : List (Action T)) (s : State T) (log : List Event)
    (h0 : chain m0 = some l0) (hrun : run m0 acts = some (s, log))
    (a : Action T) (s' : State T) (e : Event) (hstep : step s a = some (s', e)) :
    ∃ l, chain s.stack = some l ∧
      (∀ x ∈ l, ∃ n, deref s.stack.heap x.1 = some n ∧ deref s'.stack.heap x.1 = some n ∧
        n.data = x.2) ∧
      walk s'.stack.heap s'.stack.heap.length s.stack.head = some l ∧
      (∃ added, chain s'.stack = some (added ++ l) ∧
        (e.isCasOk = false → added = []) ∧ (e.isCasOk = true → added.length = 1)) ∧
      (∀ b n, deref s.stack.heap b = some n →
        ∃ n', deref s'.stack.heap b = some n' ∧ n'.data = n.data) ∧
      (∀ b ∈ addrs s.stack.heap, b ∈ addrs s'.stack.heap) := by
  have inv := Inv.run h0 hrun
  have hframe := inv.step_keeps_chain hstep
  have hold : IsChain s'.stack.heap s.stack.head (linked s.calls log ++ l0) :=
    inv.chain.frame hframe
  refine ⟨_, inv.chain_eq, ?_, hold.walk _ hold.length_le, ?_,
    fun b n hd => step_keeps_data hstep b n hd, ?_⟩
  · intro x hx
    obtain ⟨nx, hd⟩ := inv.chain.deref_mem x hx
    exact ⟨_, hd, by rw [hframe x hx, hd], rfl⟩
  · cases he : e.isCasOk with
    | false =>
      refine ⟨[], ?_, fun _ => rfl, fun h => absurd h (by decide)⟩
      rw [chain_eq_some_iff, step_head hstep he]
      exact hold
    | true =>
      cases step_cases hstep with
      | casOk i c n hc hpc hn hh =>
        refine ⟨[(c.newNode, c.val)], ?_, fun h => absurd h (by decide), fun _ => rfl⟩
        rw [chain_eq_some_iff]
        obtain ⟨hnz, _, nx, hd⟩ := inv.node i c hc (by simp [Call.hasNode, hpc])
        refine ⟨rfl, hnz, nx, hd, ?_⟩
        rw [hd] at hn
        injection hn with hn
        subst hn
        have hch := inv.chain
        rw [hh] at hch
        exact hch
      | invoke v => simp [Event.isCasOk] at he
      | allocFail i c hc hpc => simp [Event.isCasOk] at he
      | alloc i c a0 hc hpc ha => simp [Event.isCasOk] at he
      | load i c hc hpc => simp [Event.isCasOk] at he
      | casFail i c n hc hpc hn hh => simp [Event.isCasOk] at he
  · intro b hb
    by_contra hcon
    rw [← deref_eq_none_iff] at hcon
    cases hd : deref s.stack.heap b with
    | none => exact (deref_eq_none_iff _ _).1 hd hb
    | some n =>
      obtain ⟨n', hd', _⟩ := step_keeps_data hstep b n hd
      rw [hcon] at hd'
      cases hd'

/-- Witness for C11: the successful CAS of the second call after `demoRace`. -/
theorem push_never_frees_or_mutates_linked_witness :
    chain demoStack = some [(1, 10)] ∧
      run demoStack demoRace = some (demoRaceState, demoRaceLog) ∧
      step demoRaceState (Action.cas 1) = some (demoStaleState, Event.casOk 1 1 3) ∧
      ∃ l, chain demoRaceState.stack = some l ∧
        (∀ x ∈ l, ∃ n, deref demoRaceState.stack.heap x.1 = some n ∧
          deref demoStaleState.stack.heap x.1 = some n ∧ n.data = x.2) ∧
        walk demoStaleState.stack.heap demoStaleState.stack.heap.length
          demoRaceState.stack.head = some l ∧
        (∃ added, chain demoStaleState.stack = some (added ++ l) ∧
          ((Event.casOk 1 1 3).isCasOk = false → added = []) ∧
          ((Event.casOk 1 1 3).isCasOk = true → added.length = 1)) ∧
        (∀ b n, deref demoRaceState.stack.heap b = some n →
          ∃ n', deref demoStaleState.stack.heap b = some n' ∧ n'.data = n.data) ∧
        (∀ b ∈ addrs demoRaceState.stack.heap, b ∈ addrs demoStaleState.stack.heap) :=
  ⟨by decide, by decide, by decide,
    push_never_frees_or_mutates_linked demoStack [(1, 10)] demoRace demoRaceState demoRaceLog
      (by decide) (by decide) (Action.cas 1) demoStaleState (Event.casOk 1 1 3) (by decide)⟩

/-- C12 (CAS attempt semantics with snapshot refresh): for every stack state and every
attempt of line 81 with `newNode` allocated: if `head` equals `newNode->next`, then `head`
becomes `newNode`, the free store (so `newNode->next`) is unchanged and the loop ends; otherwise
`head` is unchanged, `newNode->next` is overwritten with the current `head`, no other node
changes and the loop goes on with one more retry.  The same holds for the CAS step of a call in
an interleaving: on success the call returns and the node's `next` is the value `head` had
just before the step; on failure the call stays at line 81. -/
theorem cas_attempt_semantics {T : Type} :
    (∀ (m : LockFreeStackPush T) (newNode : Addr) (n : Node T),
      deref m.heap newNode = some n →
      (m.head = n.next →
        casAttempt m newNode = some (true, { head := newNode, heap := m.heap }) ∧
        ∀ fuel retries, casLoop newNode (fuel + 1) m retries
          = some ({ head := newNode, heap := m.heap }, retries)) ∧
      (m.head ≠ n.next →
        casAttempt m newNode
          = some (false, { head := m.head, heap := storeNext m.heap newNode m.head }) ∧
        deref (storeNext m.heap newNode m.head) newNode
          = some { data := n.data, next := m.head } ∧
        (∀ b, b ≠ newNode → deref (storeNext m.heap newNode m.head) b = deref m.heap b) ∧
        ∀ fuel retries, casLoop newNode (fuel + 1) m retries
          = casLoop newNode fuel { head := m.head, heap := storeNext m.heap newNode m.head }
              (retries + 1))) ∧
    (∀ (s s' : State T) (i : Nat) (e : Event), step s (Action.cas i) = some (s', e) →
      ∃ c n, s.calls[i]? = some c ∧ c.pc = PC.line81 ∧
        deref s.stack.heap c.newNode = some n ∧
        ((s.stack.head = n.next ∧ e = Event.casOk i n.next c.newNode ∧
            s'.stack.head = c.newNode ∧ s'.stack.heap = s.stack.heap ∧
            s'.calls[i]? = some { c with pc := PC.returned }) ∨
          (s.stack.head ≠ n.next ∧ e = Event.casFail i s.stack.head ∧
            s'.stack.head = s.stack.head ∧
            deref s'.stack.heap c.newNode = some { data := n.data, next := s.stack.head } ∧
            s'.calls[i]? = some c))) := by
  constructor
  · intro m newNode n hd
    constructor
    · intro hh
      have hca : casAttempt m newNode = some (true, { head := newNode, heap := m.heap }) := by
        simp [casAttempt, hd, compare_exchange_strong, hh]
      exact ⟨hca, fun fuel retries => by simp [casLoop, hca]⟩
    · intro hh
      have hca : casAttempt m newNode
          = some (false, { head := m.head, heap := storeNext m.heap newNode m.head }) := by
        simp [casAttempt, hd, compare_exchange_strong, hh]
      refine ⟨hca, ?_, fun b hb => deref_storeNext_ne _ _ _ _ hb,
        fun fuel retries => by simp [casLoop, hca]⟩
      rw [deref_storeNext_self, hd]
      rfl
  · intro s s' i e hstep
    obtain ⟨c, n, hc, hpc, hn, hcase⟩ := step_cas hstep
    refine ⟨c, n, hc, hpc, hn, ?_⟩
    rcases hcase with ⟨hh, rfl, rfl⟩ | ⟨hh, rfl, rfl⟩
    · exact Or.inl ⟨hh, by rw [hh], rfl, rfl, getElem?_set_self_eq hc⟩
    · refine Or.inr ⟨hh, rfl, rfl, ?_, hc⟩
      show deref (storeNext s.stack.heap c.newNode s.stack.head) c.newNode = _
      rw [deref_storeNext_self, hn]
      rfl

/-- Witness for C12: the failed CAS of the first call in `demoStaleState`. -/
theorem cas_attempt_semantics_witness :
    step demoStaleState (Action.cas 0) = some (demoRefreshedState, Event.casFail 0 3) ∧
      ∃ c n, demoStaleState.calls[0]? = some c ∧ c.pc = PC.line81 ∧
        deref demoStaleState.stack.heap c.newNode = some n ∧
        ((demoStaleState.stack.head = n.next ∧
            Event.casFail 0 3 = Event.casOk 0 n.next c.newNode ∧
            demoRefreshedState.stack.head = c.newNode ∧
            demoRefreshedState.stack.heap = demoStaleState.stack.heap ∧
            demoRefreshedState.calls[0]? = some { c with pc := PC.returned }) ∨
          (demoStaleState.stack.head ≠ n.next ∧
            Event.casFail 0 3 = Event.casFail 0 demoStaleState.stack.head ∧
            demoRefreshedState.stack.head = demoStaleState.stack.head ∧
            deref demoRefreshedState.stack.heap c.newNode
              = some { data := n.data, next := demoStaleState.stack.head } ∧
            demoRefreshedState.calls[0]? = some c)) :=
  ⟨by decide,
    cas_attempt_semantics.2 demoStaleState demoRefreshedState 0 (Event.casFail 0 3) (by decide)⟩

/-- The `head` of a default-constructed stack is `nullptr` exactly when the library
value-initialises or the storage happened to hold `nullptr`. -/
theorem defaultConstructed_head_null_iff {T : Type} (valueInit : Bool) (storage : Addr)
    (heap : Heap T) :
    (defaultConstructed valueInit storage heap).head = nullptr ↔
      (valueInit = true ∨ storage = nullptr) := by
  cases valueInit <;> simp [defaultConstructed]

/-- When `head` is `nullptr` after construction, the stack is empty and the first `push(v)`
leaves a chain of exactly one node, with payload `v` and `next` null. -/
theorem first_push_on_null_head {T : Type} (valueInit : Bool) (storage : Addr) (heap : Heap T)
    (v : T) (a : Addr) (fuel : Nat) (hnull : valueInit = true ∨ storage = nullptr)
    (ha : fresh (defaultConstructed valueInit storage heap) a) :
    (defaultConstructed valueInit storage heap).head = nullptr ∧
      chain (defaultConstructed valueInit storage heap) = some [] ∧
      ∃ m', push (defaultConstructed valueInit storage heap) v (some a) (fuel + 1)
          = some (PushResult.returned m' 0) ∧
        chain m' = some [(a, v)] ∧
        deref m'.heap a = some { data := v, next := nullptr } := by
  have hhead := (defaultConstructed_head_null_iff valueInit storage heap).2 hnull
  have hch : chain (defaultConstructed valueInit storage heap) = some [] := by
    rw [chain_eq_some_iff]
    exact hhead
  refine ⟨hhead, hch, _, push_eq _ v a fuel, chain_push v hch ha, ?_⟩
  simp [deref, hhead]

/-- C13 (the code does not initialise `head`): with a library whose `std::atomic` default
constructor leaves the pointer uninitialised and storage that holds 7, the stack constructed
as in `main` is not empty: its `head` is not `nullptr` and there is no chain from it.  The
first `push(5)`, for which `new` returns address 1, returns with node 1 at `head`, but the
`next` of that node is 7, not `nullptr`, and the chain from `head` is not the list of exactly
one node. -/
theorem default_constructed_head_uninitialised :
    (defaultConstructed false 7 ([] : Heap Int)).head ≠ nullptr ∧
      chain (defaultConstructed false 7 ([] : Heap Int)) = none ∧
      mainFirstPush false 7 (some 1) 1 = some (PushResult.returned
        ({ head := 1, heap := [(1, { data := 5, next := 7 })] } : LockFreeStackPush Int) 0) ∧
      deref ([(1, { data := 5, next := 7 })] : Heap Int) 1
        ≠ some { data := 5, next := nullptr } ∧
      chain ({ head := 1, heap := [(1, { data := 5, next := 7 })] } : LockFreeStackPush Int)
        ≠ some [(1, 5)] := by
  decide

end LockFree
